import Mathlib

/-!
Verification development for the hype-whale-tracker repository.

The Python sources are shallowly embedded in Lean:
* Python `str` values are `String` or `List Char` (character level, ASCII scope).
* `decimal.Decimal` (finite values) is `PyDecimal` (sign, coefficient, exponent),
  with exact arithmetic over `ℤ`/`ℕ`; its numeric value is `PyDecimal.val : ℚ`.
* `datetime.datetime` is `PyDateTime`; `isoformat`/`fromisoformat` are
  `isoChars`/`parseIso`.
* Python dicts are association lists (`dictInsert` models `d[k] = v`,
  which replaces in place or appends, preserving insertion order).
* Fallible calls are `Option`/`Except`; the external exchange fetch is a
  parameter `fetch : String → Except String (Option (List RawPosition))`
  (`.error` models a raised exception, `.ok none` models a user state without
  an `assetPositions` key, `.ok (some rps)` models the fetched raw positions).
* The Telegram transport `bot.send_message` is a parameter
  `deliver : ℤ → DeliverResult` giving the per-recipient outcome of one
  delivery attempt (success, timeout, network error, or other error text).
-/

namespace WhaleTracker

/-! ### Character and digit utilities -/

def isDigitCh (c : Char) : Bool := 48 ≤ c.toNat && c.toNat ≤ 57

def isHexDigitCh (c : Char) : Bool :=
  (48 ≤ c.toNat && c.toNat ≤ 57) || (97 ≤ c.toNat && c.toNat ≤ 102) ||
    (65 ≤ c.toNat && c.toNat ≤ 70)

def isAsciiWs (c : Char) : Bool :=
  c = ' ' || c = '\t' || c = '\n' || c = '\r' || c = '\x0b' || c = '\x0c'

def digitChar (n : ℕ) : Char := Char.ofNat (48 + n)

def dval (c : Char) : ℕ := c.toNat - 48

/-- Decimal digits of `n`, least significant first; `fuel ≥ n` suffices. -/
def digitsRevAux : ℕ → ℕ → List Char
  | 0, _ => []
  | fuel + 1, n => if n = 0 then [] else digitChar (n % 10) :: digitsRevAux fuel (n / 10)

/-- Decimal digit characters of `n`, most significant first (Python `str(int)`
for nonnegative numbers). -/
def natDigits (n : ℕ) : List Char := if n = 0 then ['0'] else (digitsRevAux n n).reverse

/-- Numeric value of a list of decimal digit characters. -/
def digitsVal (l : List Char) : ℕ := l.foldl (fun a c => 10 * a + dval c) 0

def tenPowNat : ℕ → ℕ
  | 0 => 1
  | n + 1 => 10 * tenPowNat n

/-- Longest digit run at the front of the list, and the rest. -/
def splitDigits : List Char → List Char × List Char
  | [] => ([], [])
  | c :: r =>
    if isDigitCh c then
      let p := splitDigits r
      (c :: p.1, p.2)
    else ([], c :: r)

/-- Strip one optional leading sign; returns (isNegative, rest). -/
def stripSign : List Char → Bool × List Char
  | [] => (false, [])
  | c :: r => if c = '-' then (true, r) else if c = '+' then (false, r) else (false, c :: r)

def trimWsL (l : List Char) : List Char :=
  ((l.dropWhile isAsciiWs).reverse.dropWhile isAsciiWs).reverse

/-- Does `pat` occur at the front of the second list? -/
def startsWithL : List Char → List Char → Bool
  | [], _ => true
  | _ :: _, [] => false
  | p :: ps, c :: cs => p == c && startsWithL ps cs

/-- Does `pat` occur anywhere in the list (Python `pat in s`)? -/
def hasSubL (pat : List Char) : List Char → Bool
  | [] => startsWithL pat []
  | c :: cs => startsWithL pat (c :: cs) || hasSubL pat cs

def strContains (s pat : String) : Bool := hasSubL pat.toList s.toList

/-! ### Python `decimal.Decimal` (finite values)

A finite Decimal is a sign, an integer coefficient and an integer exponent
(`as_tuple`).  The repository only adds, subtracts, multiplies, negates and
compares values whose exact results fit well inside the default 28-digit
context, so arithmetic is modelled exactly (no context rounding). -/

structure PyDecimal where
  neg : Bool
  coeff : ℕ
  exp : ℤ
deriving DecidableEq

def PyDecimal.sgnInt (d : PyDecimal) : ℤ := if d.neg then -(d.coeff : ℤ) else (d.coeff : ℤ)

def qpow10 : ℤ → ℚ
  | Int.ofNat n => ((tenPowNat n : ℕ) : ℚ)
  | Int.negSucc n => ((tenPowNat (n + 1) : ℕ) : ℚ)⁻¹

/-- Numeric value of a Decimal, as an exact rational. -/
def PyDecimal.val (d : PyDecimal) : ℚ := (d.sgnInt : ℚ) * qpow10 d.exp

def minExp (a b : PyDecimal) : ℤ := if a.exp ≤ b.exp then a.exp else b.exp

/-- Integer value of `d` rescaled to exponent `e ≤ d.exp`. -/
def PyDecimal.scaledAt (d : PyDecimal) (e : ℤ) : ℤ :=
  d.sgnInt * (tenPowNat (d.exp - e).toNat : ℤ)

/-- Python `d1 < d2` on Decimals (numeric comparison). -/
def PyDecimal.ltB (a b : PyDecimal) : Bool :=
  decide (a.scaledAt (minExp a b) < b.scaledAt (minExp a b))

/-- Python `d1 <= d2` on Decimals (numeric comparison). -/
def PyDecimal.leB (a b : PyDecimal) : Bool :=
  decide (a.scaledAt (minExp a b) ≤ b.scaledAt (minExp a b))

/-- Python Decimal subtraction; the exact result carries exponent
`min(exp1, exp2)`. -/
def PyDecimal.sub (a b : PyDecimal) : PyDecimal :=
  let m := minExp a b
  let n : ℤ := a.scaledAt m - b.scaledAt m
  ⟨decide (n < 0), n.natAbs, m⟩

/-- Python Decimal multiplication (exact result). -/
def PyDecimal.mul (a b : PyDecimal) : PyDecimal :=
  ⟨xor a.neg b.neg, a.coeff * b.coeff, a.exp + b.exp⟩

/-- Python `abs` on Decimals. -/
def PyDecimal.absD (d : PyDecimal) : PyDecimal := ⟨false, d.coeff, d.exp⟩

/-- Python `d == 0` (also models `float(s) == 0` on the exact value). -/
def PyDecimal.isZero (d : PyDecimal) : Bool := d.coeff == 0

/-- Python `d > 0`. -/
def PyDecimal.isPos (d : PyDecimal) : Bool := decide (0 < d.sgnInt)

/-- Scientific-notation mantissa: a point after the first digit when there
are several. -/
def mantChars : List Char → List Char
  | [] => []
  | [c] => [c]
  | c :: rest => c :: '.' :: rest

/-- Unsigned part of Python `str` on a finite Decimal with coefficient `c`
and exponent `e`. -/
def decBody (c : ℕ) (e : ℤ) : List Char :=
  if e ≤ 0 ∧ -6 ≤ e + ((natDigits c).length : ℤ) - 1 then
    if e = 0 then natDigits c
    else if 1 ≤ ((natDigits c).length : ℤ) + e then
      (natDigits c).take (((natDigits c).length : ℤ) + e).toNat ++
        '.' :: (natDigits c).drop (((natDigits c).length : ℤ) + e).toNat
    else
      '0' :: '.' :: (List.replicate (-(((natDigits c).length : ℤ) + e)).toNat '0' ++ natDigits c)
  else
    mantChars (natDigits c) ++
      'E' :: (if e + ((natDigits c).length : ℤ) - 1 < 0 then '-' else '+') ::
        natDigits (e + ((natDigits c).length : ℤ) - 1).natAbs

/-- Python `str` on a finite Decimal, following the to-scientific-string
conversion of the General Decimal Arithmetic specification that `decimal`
implements: plain notation when `exp ≤ 0` and the adjusted exponent is
at least `-6`, exponential notation (with an explicit `E` and sign) otherwise. -/
def decChars (d : PyDecimal) : List Char :=
  if d.neg then '-' :: decBody d.coeff d.exp else decBody d.coeff d.exp

def parseFrac (l : List Char) : List Char × List Char :=
  match l with
  | [] => ([], [])
  | c :: r => if c = '.' then splitDigits r else (([] : List Char), c :: r)

def parseExpTail (neg : Bool) (digs : List Char) (fracLen : ℕ) : List Char → Option PyDecimal
  | [] => some ⟨neg, digitsVal digs, -(fracLen : ℤ)⟩
  | c :: r =>
    if c = 'E' || c = 'e' then
      let s := stripSign r
      let p := splitDigits s.2
      if p.1.isEmpty || !p.2.isEmpty then none
      else
        some ⟨neg, digitsVal digs,
          (if s.1 then -(digitsVal p.1 : ℤ) else (digitsVal p.1 : ℤ)) - (fracLen : ℤ)⟩
    else none

def parseNoSign (neg : Bool) (l : List Char) : Option PyDecimal :=
  let ip := splitDigits l
  let fp := parseFrac ip.2
  if ip.1.isEmpty && fp.1.isEmpty then none
  else parseExpTail neg (ip.1 ++ fp.1) fp.1.length fp.2

/-- The `Decimal(string)` constructor, on the grammar fragment that
`str(Decimal)` produces: optional sign, digits with an optional single point,
optional `E`/`e` exponent with optional sign.  (The Python constructor accepts
a superset — payload whitespace, underscores, `Infinity`/`NaN` — none of which
a rendered finite Decimal contains.) -/
def parseDec (l : List Char) : Option PyDecimal :=
  let s := stripSign l
  parseNoSign s.1 s.2

def PyDecimal.toStr (d : PyDecimal) : String := ⟨decChars d⟩

def PyDecimal.ofStr (s : String) : Option PyDecimal := parseDec s.toList

/-! ### Python `datetime.datetime` and its ISO-8601 codec -/

structure PyDateTime where
  year : ℕ
  month : ℕ
  day : ℕ
  hour : ℕ
  minute : ℕ
  second : ℕ
  microsecond : ℕ
deriving DecidableEq

/-- Field ranges guaranteed by the `datetime` constructor. -/
def PyDateTime.Valid (t : PyDateTime) : Prop :=
  1 ≤ t.year ∧ t.year ≤ 9999 ∧ 1 ≤ t.month ∧ t.month ≤ 12 ∧ 1 ≤ t.day ∧ t.day ≤ 31 ∧
    t.hour ≤ 23 ∧ t.minute ≤ 59 ∧ t.second ≤ 59 ∧ t.microsecond ≤ 999999

instance (t : PyDateTime) : Decidable t.Valid := by
  unfold PyDateTime.Valid
  infer_instance

/-- Zero-padded fixed-width decimal rendering. -/
def padNum (w n : ℕ) : List Char := List.replicate (w - (natDigits n).length) '0' ++ natDigits n

/-- Python `datetime.isoformat()`: `YYYY-MM-DDTHH:MM:SS` with a `.ffffff`
suffix exactly when the microsecond field is nonzero. -/
def isoChars (t : PyDateTime) : List Char :=
  padNum 4 t.year ++ '-' :: padNum 2 t.month ++ '-' :: padNum 2 t.day ++
    'T' :: padNum 2 t.hour ++ ':' :: padNum 2 t.minute ++ ':' :: padNum 2 t.second ++
    (if t.microsecond = 0 then [] else '.' :: padNum 6 t.microsecond)

def readFixed (w : ℕ) (l : List Char) : Option (ℕ × List Char) :=
  let pre := l.take w
  if pre.length = w && pre.all isDigitCh then some (digitsVal pre, l.drop w) else none

def expectCh (c : Char) (l : List Char) : Option (List Char) :=
  match l with
  | [] => none
  | x :: r => if x = c then some r else none

/-- Python `datetime.fromisoformat` on the layout that `isoformat` emits. -/
def parseIso (l : List Char) : Option PyDateTime := do
  let a ← readFixed 4 l
  let l1 ← expectCh '-' a.2
  let b ← readFixed 2 l1
  let l2 ← expectCh '-' b.2
  let c ← readFixed 2 l2
  let l3 ← expectCh 'T' c.2
  let d ← readFixed 2 l3
  let l4 ← expectCh ':' d.2
  let e ← readFixed 2 l4
  let l5 ← expectCh ':' e.2
  let f ← readFixed 2 l5
  match f.2 with
  | [] => some ⟨a.1, b.1, c.1, d.1, e.1, f.1, 0⟩
  | x :: r =>
    if x = '.' then
      match readFixed 6 r with
      | some g => if g.2.isEmpty then some ⟨a.1, b.1, c.1, d.1, e.1, f.1, g.1⟩ else none
      | none => none
    else none

def PyDateTime.toIso (t : PyDateTime) : String := ⟨isoChars t⟩

def PyDateTime.ofIso (s : String) : Option PyDateTime := parseIso s.toList

/-! ### Address validation

`_validate_address` appears identically in `telegram_bot.py`,
`telegram_command_handler.py` and `utils.py`: nonempty, starts with `0x`,
total length 42, and `int(address[2:], 16)` succeeds. -/

def startsWith0x : List Char → Bool
  | c0 :: c1 :: _ => c0 == '0' && c1 == 'x'
  | _ => false

/-- Hex digits with single underscores strictly between digits (continuation
after an accepted first digit). -/
def hexRun : List Char → Bool
  | [] => true
  | c :: r =>
    if c = '_' then
      match r with
      | [] => false
      | d :: r2 => isHexDigitCh d && hexRun r2
    else isHexDigitCh c && hexRun r

def dropSign : List Char → List Char
  | [] => []
  | c :: r => if c = '+' || c = '-' then r else c :: r

/-- Strip an optional `0x`/`0X` base marker (one underscore may follow it). -/
def drop0x : List Char → List Char
  | [] => []
  | [c] => [c]
  | c0 :: c1 :: r =>
    if c0 = '0' && (c1 = 'x' || c1 = 'X') then
      match r with
      | [] => []
      | c2 :: r2 => if c2 = '_' then r2 else c2 :: r2
    else c0 :: c1 :: r

/-- Success of Python `int(s, 16)` (ASCII scope): surrounding whitespace,
an optional sign, an optional `0x`/`0X` marker, then hex digits grouped by
single underscores. -/
def pyIntHexValid (l : List Char) : Bool :=
  match drop0x (dropSign (trimWsL l)) with
  | [] => false
  | c :: r => isHexDigitCh c && hexRun r

def validAddrL (l : List Char) : Bool :=
  if l.isEmpty then false
  else if !(startsWith0x l) then false
  else if l.length != 42 then false
  else pyIntHexValid (l.drop 2)

def validateAddress (s : String) : Bool := validAddrL s.toList

/-- The well-formedness rule as the specification words it: starts with `0x`,
exactly 42 characters, and the 40 characters after the two-character marker
are all hexadecimal digits. -/
def specWellFormed (s : String) : Prop :=
  startsWith0x s.toList = true ∧ s.toList.length = 42 ∧
    ∀ c ∈ s.toList.drop 2, isHexDigitCh c = true

instance (s : String) : Decidable (specWellFormed s) := by
  unfold specWellFormed
  infer_instance

/-! ### Fixed configuration (`config.py`) -/

def Config.MIN_POSITION_SIZE : PyDecimal := ⟨false, 1000, 0⟩

def Config.MIN_CHANGE_THRESHOLD : PyDecimal := ⟨false, 500, 0⟩

def Config.TELEGRAM_SEND_POSITION_CHANGES : Bool := true

/-! ### Position data model (`position_tracker.py`) -/

structure Position where
  symbol : String
  size : PyDecimal
  side : String
  entry_price : PyDecimal
  market_value : PyDecimal
  unrealized_pnl : PyDecimal
  timestamp : PyDateTime
deriving DecidableEq

structure PositionChange where
  address : String
  symbol : String
  change_type : String
  old_position : Option Position
  new_position : Option Position
  change_amount : PyDecimal
  timestamp : PyDateTime
deriving DecidableEq

/-- A Python dict as an association list; `dictInsert` is `d[k] = v`:
replace in place if the key exists, append otherwise. -/
def dictInsert {α : Type} : List (String × α) → String → α → List (String × α)
  | [], k, v => [(k, v)]
  | (k1, v1) :: rest, k, v =>
    if k1 = k then (k, v) :: rest else (k1, v1) :: dictInsert rest k v

/-- Python `del d[k]` (no-op when the key is absent, as in
`_remove_invalid_user` which checks membership first). -/
def dictErase {α : Type} (m : List (String × α)) (k : String) : List (String × α) :=
  m.filter (fun e => !(e.1 == k))

abbrev PosMap := List (String × Position)

/-- One raw entry of the exchange response `user_state['assetPositions']`;
`entryPx` is `none` when the field is null/empty. -/
structure RawPosition where
  coin : String
  szi : PyDecimal
  entryPx : Option PyDecimal
  unrealizedPnl : PyDecimal
deriving DecidableEq

/-- Loop body of `HyperliquidTracker.get_user_positions`: skip zero-size
entries, compute the market value, skip entries below `MIN_POSITION_SIZE`,
store by coin. -/
def trackStep (now : PyDateTime) (acc : PosMap) (rp : RawPosition) : PosMap :=
  if rp.szi.isZero then acc
  else
    if ((rp.szi.absD).mul (rp.entryPx.getD ⟨false, 0, 0⟩)).ltB Config.MIN_POSITION_SIZE then acc
    else
      dictInsert acc rp.coin
        ⟨rp.coin, rp.szi.absD, if rp.szi.isPos then "long" else "short",
          rp.entryPx.getD ⟨false, 0, 0⟩, (rp.szi.absD).mul (rp.entryPx.getD ⟨false, 0, 0⟩),
          rp.unrealizedPnl, now⟩

/-- The position-building loop of `HyperliquidTracker.get_user_positions`. -/
def buildPositions (now : PyDateTime) (rps : List RawPosition) : PosMap :=
  rps.foldl (trackStep now) []

/-- `HyperliquidTracker.get_user_positions`: any raised error is caught,
logged and turned into an empty position map; a user state without
`assetPositions` also yields the empty map. -/
def getUserPositions (fetched : Except String (Option (List RawPosition))) (now : PyDateTime) :
    PosMap :=
  match fetched with
  | .error _ => []
  | .ok none => []
  | .ok (some rps) => buildPositions now rps

/-- Change events emitted for one symbol by `_detect_changes`. -/
def symbolChanges (address : String) (old_positions new_positions : PosMap) (now : PyDateTime)
    (s : String) : List PositionChange :=
  match List.lookup s old_positions, List.lookup s new_positions with
  | none, some np => [⟨address, s, "opened", none, some np, np.market_value, now⟩]
  | some op, none => [⟨address, s, "closed", some op, none, op.market_value, now⟩]
  | some op, some np =>
    let sizeChange := np.market_value.sub op.market_value
    if Config.MIN_CHANGE_THRESHOLD.leB sizeChange.absD then
      [⟨address, s, if sizeChange.isPos then "increased" else "decreased",
        some op, some np, sizeChange.absD, now⟩]
    else []
  | none, none => []

/-- `HyperliquidTracker._detect_changes`: iterate the union of the two key
sets and emit per-symbol events. -/
def detectChanges (address : String) (old_positions new_positions : PosMap)
    (now : PyDateTime) : List PositionChange :=
  ((old_positions.map Prod.fst ++ new_positions.map Prod.fst).dedup).flatMap
    (symbolChanges address old_positions new_positions now)

/-- Result of one `check_all_addresses` cycle: the updated
`current_positions` store, the collected changes, and whether
`_save_positions` was invoked (it is, exactly when changes were found). -/
structure CycleOutcome where
  state : List (String × PosMap)
  changes : List PositionChange
  saved : Bool
deriving DecidableEq

/-- The per-address body of the loop in `check_all_addresses`. -/
def cycleStep (fetch : String → Except String (Option (List RawPosition))) (now : PyDateTime)
    (acc : List (String × PosMap) × List PositionChange) (address : String) :
    List (String × PosMap) × List PositionChange :=
  let newPositions := getUserPositions (fetch address) now
  let oldPositions := (List.lookup address acc.1).getD []
  let changes := detectChanges address oldPositions newPositions now
  (dictInsert acc.1 address newPositions, acc.2 ++ changes)

/-- `HyperliquidTracker.check_all_addresses`.  The surrounding
`try/except` of the loop body never fires in this model because
`get_user_positions` already swallows every fetch error. -/
def checkAllAddresses (tracked : List String)
    (fetch : String → Except String (Option (List RawPosition))) (now : PyDateTime)
    (st : List (String × PosMap)) : CycleOutcome :=
  let r := tracked.foldl (cycleStep fetch now) (st, [])
  ⟨r.1, r.2, !r.2.isEmpty⟩

/-! ### Read-only point query (`telegram_command_handler.py`) -/

structure QueryPosition where
  symbol : String
  size : PyDecimal
  side : String
  entry_price : PyDecimal
  market_value : PyDecimal
  unrealized_pnl : PyDecimal
deriving DecidableEq

/-- Loop body of `WhaleTrackerCommandHandler._get_address_positions`: the
same zero-size skip as the tracker, but no `MIN_POSITION_SIZE` floor. -/
def queryStep (acc : List (String × QueryPosition)) (rp : RawPosition) :
    List (String × QueryPosition) :=
  if rp.szi.isZero then acc
  else
    dictInsert acc rp.coin
      ⟨rp.coin, rp.szi.absD, if rp.szi.isPos then "long" else "short",
        rp.entryPx.getD ⟨false, 0, 0⟩, (rp.szi.absD).mul (rp.entryPx.getD ⟨false, 0, 0⟩),
        rp.unrealizedPnl⟩

/-- The position-building loop of
`WhaleTrackerCommandHandler._get_address_positions`. -/
def buildQueryPositions (rps : List RawPosition) : List (String × QueryPosition) :=
  rps.foldl queryStep []

/-- `_get_address_positions` re-raises fetch errors (unlike the tracker's
`get_user_positions`, which swallows them). -/
def getAddressPositions (fetched : Except String (Option (List RawPosition))) :
    Except String (List (String × QueryPosition)) :=
  match fetched with
  | .error e => .error e
  | .ok none => .ok []
  | .ok (some rps) => .ok (buildQueryPositions rps)

/-! ### Telegram notifier state and broadcast (`telegram_bot.py`) -/

structure UserInfo where
  chat_id : ℤ
  username : String
  first_name : String
  added_at : String
deriving DecidableEq

/-- Outcome of one transport delivery attempt, as distinguished by the
`except` clauses of `send_message`. -/
inductive DeliverResult
  | ok
  | timedOut
  | networkError
  | err (msg : String)
deriving DecidableEq

def chatNotFound (msg : String) : Bool := strContains msg "Chat not found"

def isRemovalErr : DeliverResult → Bool
  | .err m => chatNotFound m
  | _ => false

def isOkResult : DeliverResult → Bool
  | .ok => true
  | _ => false

/-- `TelegramNotifier._remove_invalid_user`. -/
def removeInvalidUser (users : List (String × UserInfo)) (chatId : ℤ) :
    List (String × UserInfo) :=
  dictErase users (toString chatId)

/-- The delivery loop of `send_message`: one attempt per chat id (in order),
counting successes; a `Chat not found` error removes that user from the
registry; every other failure is logged and skipped.  Returns
(successCount, finalUsers, attempts). -/
def sendLoop (deliver : ℤ → DeliverResult) (message : String) :
    List ℤ → List (String × UserInfo) → ℕ × List (String × UserInfo) × List (ℤ × String)
  | [], users => (0, users, [])
  | id :: rest, users =>
    let r := deliver id
    let users2 := if isRemovalErr r then removeInvalidUser users id else users
    let t := sendLoop deliver message rest users2
    ((if isOkResult r then 1 else 0) + t.1, t.2.1, (id, message) :: t.2.2)

structure SendOutcome where
  ok : Bool
  users : List (String × UserInfo)
  attempts : List (ℤ × String)
deriving DecidableEq

/-- `TelegramNotifier.send_message`: broadcast to every registered user
(falling back to the configured main chat id when none are registered),
returning `True` iff at least one delivery succeeded. -/
def sendMessage (enabled : Bool) (users : List (String × UserInfo)) (mainChatId : Option ℤ)
    (deliver : ℤ → DeliverResult) (message : String) : SendOutcome :=
  if !enabled then ⟨false, users, []⟩
  else
    let ids := users.map (fun e => e.2.chat_id)
    let ids2 :=
      if ids.isEmpty then
        match mainChatId with
        | some m => [m]
        | none => []
      else ids
    if ids2.isEmpty then ⟨false, users, []⟩
    else
      let r := sendLoop deliver message ids2 users
      ⟨decide (0 < r.1), r.2.1, r.2.2⟩

/-- `TelegramNotifier.send_position_change`.  Event-to-text rendering
(`_format_position_change_message`) is a presentation concern (spec section
4.6) and is passed in as `render`. -/
def sendPositionChange (enabled : Bool) (users : List (String × UserInfo))
    (mainChatId : Option ℤ) (deliver : ℤ → DeliverResult)
    (render : PositionChange → String) (ch : PositionChange) : SendOutcome :=
  if !Config.TELEGRAM_SEND_POSITION_CHANGES then ⟨true, users, []⟩
  else if ch.change_type == "opened" then ⟨true, users, []⟩
  else sendMessage enabled users mainChatId deliver (render ch)

/-- `TelegramNotifier.add_user`: register a new recipient (appending, then
persisting) or update the stored names of an existing one.  `username` and
`first_name` are `none` when absent (Python falsy). -/
def addUser (users : List (String × UserInfo)) (userId : ℤ)
    (username firstName : Option String) (nowIso : String) : List (String × UserInfo) :=
  let key := toString userId
  match List.lookup key users with
  | some _ =>
    users.map (fun e =>
      if e.1 = key then
        (e.1, { e.2 with
                  username := username.getD e.2.username,
                  first_name := firstName.getD e.2.first_name })
      else e)
  | none => users ++ [(key, ⟨userId, username.getD "Unknown", firstName.getD "Unknown", nowIso⟩)]

/-! ### Add / remove commands (`telegram_bot.py`)

The address-relevant state of `TelegramNotifier`: the in-memory
`dynamic_addresses` dict, the content of `data/dynamic_addresses.json`
(`file_addresses`, the last successfully written value), and the user
registry.  `_save_dynamic_addresses` is modelled by the `saveOk` flag: on
`true` the file receives the new dict, on `false` the write raises, the
error is logged inside `_save_dynamic_addresses` and the function returns
normally either way. -/

structure BotState where
  dynamic_addresses : List (String × String)
  file_addresses : List (String × String)
  users : List (String × UserInfo)
deriving DecidableEq

inductive AddReply
  | usage
  | invalidAddr
  | alreadyTracked
  | success
deriving DecidableEq

structure AddOutcome where
  st : BotState
  reply : AddReply
deriving DecidableEq

/-- Split at the first colon, Python `s.split(":", 1)` guarded by
`":" in s` (`none` when there is no colon). -/
def splitColon1 : List Char → Option (List Char × List Char)
  | [] => none
  | c :: r =>
    if c = ':' then some ([], r)
    else
      match splitColon1 r with
      | some p => some (c :: p.1, p.2)
      | none => none

/-- Python `" ".join(args)`. -/
def joinSpace : List (List Char) → List Char
  | [] => []
  | [x] => x
  | x :: r => x ++ ' ' :: joinSpace r

/-- Argument parsing of `handle_add_command`: `address:label` (both
stripped) or a bare address with a generated alias.  The alias generator is
randomized, so the alias it would produce is the parameter `genAlias`. -/
def parseAddArg (argChars : List Char) (genAlias : String) : String × String :=
  match splitColon1 argChars with
  | some p => (⟨trimWsL p.1⟩, ⟨trimWsL p.2⟩)
  | none => (⟨trimWsL argChars⟩, genAlias)

/-- `TelegramNotifier.handle_add_command` (replies that only report state
are collapsed into `AddReply`). -/
def handleAddCommand (st : BotState) (userId : ℤ) (username firstName : Option String)
    (nowIso : String) (args : List String) (genAlias : String) (saveOk : Bool) : AddOutcome :=
  let users2 := addUser st.users userId username firstName nowIso
  if args.isEmpty then ⟨{ st with users := users2 }, .usage⟩
  else
    let al := parseAddArg (joinSpace (args.map String.toList)) genAlias
    if !(validateAddress al.1) then ⟨{ st with users := users2 }, .invalidAddr⟩
    else if (List.lookup al.1 st.dynamic_addresses).isSome then
      ⟨{ st with users := users2 }, .alreadyTracked⟩
    else
      let dyn2 := dictInsert st.dynamic_addresses al.1 al.2
      let file2 := if saveOk then dyn2 else st.file_addresses
      ⟨⟨dyn2, file2, users2⟩, .success⟩

inductive RemoveReply
  | usage
  | invalidAddr
  | notTracked
  | success
deriving DecidableEq

structure RemoveOutcome where
  st : BotState
  reply : RemoveReply
deriving DecidableEq

/-- `TelegramNotifier.handle_remove_command`. -/
def handleRemoveCommand (st : BotState) (userId : ℤ) (username firstName : Option String)
    (nowIso : String) (args : List String) (saveOk : Bool) : RemoveOutcome :=
  let users2 := addUser st.users userId username firstName nowIso
  if args.isEmpty then ⟨{ st with users := users2 }, .usage⟩
  else
    let address : String := ⟨trimWsL (joinSpace (args.map String.toList))⟩
    if !(validateAddress address) then ⟨{ st with users := users2 }, .invalidAddr⟩
    else if (List.lookup address st.dynamic_addresses).isNone then
      ⟨{ st with users := users2 }, .notTracked⟩
    else
      let dyn2 := dictErase st.dynamic_addresses address
      let file2 := if saveOk then dyn2 else st.file_addresses
      ⟨⟨dyn2, file2, users2⟩, .success⟩

/-! ### Snapshot serialization (`Position.to_dict` / `from_dict`,
`_save_positions` / `_load_positions`)

`json.dump`/`json.load` on a nested dict whose leaves are strings is an exact
external codec, so the stored file is modelled as the nested structure of
`PosDict` values itself. -/

structure PosDict where
  symbol : String
  size : String
  side : String
  entry_price : String
  market_value : String
  unrealized_pnl : String
  timestamp : String
deriving DecidableEq

/-- `Position.to_dict`. -/
def Position.toDict (p : Position) : PosDict :=
  ⟨p.symbol, p.size.toStr, p.side, p.entry_price.toStr, p.market_value.toStr,
    p.unrealized_pnl.toStr, p.timestamp.toIso⟩

/-- `Position.from_dict`; `none` models a raised conversion error. -/
def Position.fromDict (d : PosDict) : Option Position := do
  let size ← PyDecimal.ofStr d.size
  let entryPrice ← PyDecimal.ofStr d.entry_price
  let marketValue ← PyDecimal.ofStr d.market_value
  let unrealizedPnl ← PyDecimal.ofStr d.unrealized_pnl
  let ts ← PyDateTime.ofIso d.timestamp
  some ⟨d.symbol, size, d.side, entryPrice, marketValue, unrealizedPnl, ts⟩

/-- `HyperliquidTracker._save_positions` (structure written to
`positions.json`). -/
def savePositions (snap : List (String × PosMap)) : List (String × List (String × PosDict)) :=
  snap.map (fun a => (a.1, a.2.map (fun e => (e.1, e.2.toDict))))

def optMapList {α β : Type} (f : α → Option β) : List α → Option (List β)
  | [] => some []
  | x :: r =>
    match f x, optMapList f r with
    | some y, some ys => some (y :: ys)
    | _, _ => none

/-- The conversion loop of `_load_positions` before its `except` clause. -/
def loadPositionsE (file : List (String × List (String × PosDict))) :
    Option (List (String × PosMap)) :=
  optMapList
    (fun a =>
      (optMapList (fun e => (Position.fromDict e.2).map (fun p => (e.1, p))) a.2).map
        (fun m => (a.1, m)))
    file

/-- `HyperliquidTracker._load_positions`: a conversion error is caught and
the store reset to empty. -/
def loadPositions (file : List (String × List (String × PosDict))) : List (String × PosMap) :=
  (loadPositionsE file).getD []

/-! ### Concrete instances used by the closed theorems -/

def t0W : PyDateTime := ⟨2026, 1, 1, 0, 0, 0, 0⟩

def posEthW : Position :=
  ⟨"ETH", ⟨false, 10, 0⟩, "long", ⟨false, 2500, 0⟩, ⟨false, 25000, 0⟩, ⟨false, 500, 0⟩, t0W⟩

def posEth37W : Position :=
  ⟨"ETH", ⟨false, 15, 0⟩, "long", ⟨false, 2500, 0⟩, ⟨false, 37500, 0⟩, ⟨false, 1250, 0⟩, t0W⟩

def rawBtcW : RawPosition := ⟨"BTC", ⟨false, 1, 0⟩, some ⟨false, 45000, 0⟩, ⟨false, 7, 0⟩⟩

def posBtcW : Position :=
  ⟨"BTC", ⟨false, 1, 0⟩, "long", ⟨false, 45000, 0⟩, ⟨false, 45000, 0⟩, ⟨false, 7, 0⟩, t0W⟩

/-- A fetch that raises for `0xA` and returns one BTC raw position otherwise. -/
def fetchW : String → Except String (Option (List RawPosition)) := fun a =>
  if a = "0xA" then .error "timeout" else .ok (some [rawBtcW])

def u1W : UserInfo := ⟨1, "alice", "Alice", "t"⟩

def u2W : UserInfo := ⟨2, "bob", "Bob", "t"⟩

def u3W : UserInfo := ⟨3, "carol", "Carol", "t"⟩

def usersW : List (String × UserInfo) := [("1", u1W), ("2", u2W), ("3", u3W)]

/-- Delivery outcome with a timeout for recipient 2 and success elsewhere. -/
def deliverW : ℤ → DeliverResult := fun id => if id = 2 then .timedOut else .ok

def goodAddrW : String := "0x1111111111111111111111111111111111111111"

/-- Accepted by `_validate_address` although the 40 characters after `0x`
are not all hexadecimal digits (Python `int(s, 16)` tolerates a sign). -/
def badAddrW : String := "0x+111111111111111111111111111111111111111"

def snapW : List (String × PosMap) := [("0xB", [("BTC", posBtcW), ("ETH", posEth37W)])]

/-- A nonzero-size raw position whose market value (700) is below
`MIN_POSITION_SIZE` (1000). -/
def rawDogeW : RawPosition := ⟨"DOGE", ⟨false, 7, 0⟩, some ⟨false, 100, 0⟩, ⟨false, 0, 0⟩⟩

/-- An opened BTC change, as emitted by the detector. -/
def chOpenW : PositionChange :=
  ⟨"0xB", "BTC", "opened", none, some posBtcW, posBtcW.market_value, t0W⟩

/-- A closed ETH change, as emitted by the detector. -/
def chCloseW : PositionChange :=
  ⟨"0xA", "ETH", "closed", some posEthW, none, posEthW.market_value, t0W⟩

/-- A concrete renderer standing in for `_format_position_change_message`. -/
def renderW : PositionChange → String := fun ch => ch.symbol

/-- The argument string of an add command carrying a label. -/
def addArgW : String := "0x1111111111111111111111111111111111111111:Whale"

/-- A bot state already tracking `goodAddrW`. -/
def st2W : BotState := ⟨[(goodAddrW, "Whale")], [(goodAddrW, "Whale")], []⟩

/-! ## Digit and splitting lemmas -/

theorem dval_digitChar (k : ℕ) (h : k < 10) : dval (digitChar k) = k := by
  interval_cases k <;> decide

theorem isDigitCh_digitChar (k : ℕ) (h : k < 10) : isDigitCh (digitChar k) = true := by
  interval_cases k <;> decide

theorem digitsRevAux_all_digits :
    ∀ fuel n, n ≤ fuel → ∀ c ∈ digitsRevAux fuel n, isDigitCh c = true := by
  intro fuel
  induction fuel with
  | zero =>
    intro n hn c hc
    interval_cases n
    simp [digitsRevAux] at hc
  | succ fuel ih =>
    intro n hn c hc
    by_cases h0 : n = 0
    · simp [digitsRevAux, h0] at hc
    · have hlt : n / 10 < n := Nat.div_lt_self (Nat.pos_of_ne_zero h0) (by omega)
      simp only [digitsRevAux, if_neg h0, List.mem_cons] at hc
      rcases hc with rfl | hc
      · exact isDigitCh_digitChar _ (Nat.mod_lt _ (by omega))
      · exact ih (n / 10) (by omega) c hc

theorem natDigits_all_digits (n : ℕ) : ∀ c ∈ natDigits n, isDigitCh c = true := by
  intro c hc
  unfold natDigits at hc
  by_cases h0 : n = 0
  · rw [if_pos h0] at hc
    simp at hc
    subst hc
    decide
  · rw [if_neg h0, List.mem_reverse] at hc
    exact digitsRevAux_all_digits n n le_rfl c hc

theorem natDigits_ne_nil (n : ℕ) : natDigits n ≠ [] := by
  unfold natDigits
  by_cases h0 : n = 0
  · simp [h0]
  · rw [if_neg h0]
    simp only [ne_eq, List.reverse_eq_nil_iff]
    cases n with
    | zero => exact absurd rfl h0
    | succ m => simp [digitsRevAux]

theorem digitsVal_foldl (l : List Char) :
    ∀ a : ℕ, l.foldl (fun a c => 10 * a + dval c) a = a * tenPowNat l.length + digitsVal l := by
  induction l with
  | nil => intro a; simp [digitsVal, tenPowNat]
  | cons c r ih =>
    intro a
    have hcons : digitsVal (c :: r) = dval c * tenPowNat r.length + digitsVal r := by
      unfold digitsVal
      simp only [List.foldl_cons]
      rw [ih (10 * 0 + dval c)]
      ring_nf
      rfl
    simp only [List.foldl_cons]
    rw [ih (10 * a + dval c), hcons, List.length_cons]
    show _ = a * tenPowNat (r.length + 1) + _
    have hT : tenPowNat (r.length + 1) = 10 * tenPowNat r.length := rfl
    rw [hT]
    ring

theorem digitsVal_cons (c : Char) (r : List Char) :
    digitsVal (c :: r) = dval c * tenPowNat r.length + digitsVal r := by
  unfold digitsVal
  simp only [List.foldl_cons]
  rw [digitsVal_foldl r (10 * 0 + dval c)]
  ring_nf
  rfl

theorem digitsVal_append (x y : List Char) :
    digitsVal (x ++ y) = digitsVal x * tenPowNat y.length + digitsVal y := by
  unfold digitsVal
  rw [List.foldl_append]
  exact digitsVal_foldl y _

theorem digitsVal_revAux : ∀ fuel n, n ≤ fuel → digitsVal ((digitsRevAux fuel n).reverse) = n := by
  intro fuel
  induction fuel with
  | zero =>
    intro n hn
    interval_cases n
    simp [digitsRevAux, digitsVal]
  | succ fuel ih =>
    intro n hn
    by_cases h0 : n = 0
    · simp [digitsRevAux, h0, digitsVal]
    · have hlt : n / 10 < n := Nat.div_lt_self (Nat.pos_of_ne_zero h0) (by omega)
      have h1 : digitsVal ((digitsRevAux fuel (n / 10)).reverse) = n / 10 := ih _ (by omega)
      simp only [digitsRevAux, if_neg h0, List.reverse_cons]
      rw [digitsVal_append, h1]
      have h2 : digitsVal [digitChar (n % 10)] = n % 10 := by
        rw [digitsVal_cons]
        simp [digitsVal, dval_digitChar (n % 10) (Nat.mod_lt _ (by omega)), tenPowNat]
      rw [h2]
      have h3 : tenPowNat (List.length [digitChar (n % 10)]) = 10 := rfl
      rw [h3]
      omega

theorem digitsVal_natDigits (n : ℕ) : digitsVal (natDigits n) = n := by
  unfold natDigits
  by_cases h0 : n = 0
  · rw [if_pos h0, h0]
    decide
  · rw [if_neg h0]
    exact digitsVal_revAux n n le_rfl

theorem digitsVal_replicate_zero (m : ℕ) (l : List Char) :
    digitsVal (List.replicate m '0' ++ l) = digitsVal l := by
  induction m with
  | zero => simp
  | succ k ih =>
    have h1 : digitsVal ('0' :: (List.replicate k '0' ++ l)) =
        digitsVal (List.replicate k '0' ++ l) := by
      unfold digitsVal
      simp only [List.foldl_cons]
      congr 1
    rw [List.replicate_succ, List.cons_append, h1, ih]

theorem length_digitsRevAux_le :
    ∀ fuel n w, n ≤ fuel → n < tenPowNat w → (digitsRevAux fuel n).length ≤ w := by
  intro fuel
  induction fuel with
  | zero =>
    intro n w hn _
    interval_cases n
    simp [digitsRevAux]
  | succ fuel ih =>
    intro n w hn hw
    by_cases h0 : n = 0
    · simp [digitsRevAux, h0]
    · have hlt : n / 10 < n := Nat.div_lt_self (Nat.pos_of_ne_zero h0) (by omega)
      cases w with
      | zero =>
        have : tenPowNat 0 = 1 := rfl
        omega
      | succ w2 =>
        have hw2 : n / 10 < tenPowNat w2 := by
          rw [Nat.div_lt_iff_lt_mul (by omega : (0:ℕ) < 10)]
          have hT : tenPowNat (w2 + 1) = tenPowNat w2 * 10 := by
            show 10 * tenPowNat w2 = tenPowNat w2 * 10
            ring
          rw [hT] at hw
          exact hw
        simp only [digitsRevAux, if_neg h0, List.length_cons]
        have := ih (n / 10) w2 (by omega) hw2
        omega

theorem length_natDigits_le (n w : ℕ) (hw : 1 ≤ w) (h : n < tenPowNat w) :
    (natDigits n).length ≤ w := by
  unfold natDigits
  by_cases h0 : n = 0
  · rw [if_pos h0]
    simpa using hw
  · rw [if_neg h0, List.length_reverse]
    exact length_digitsRevAux_le n n w le_rfl h

theorem splitDigits_cons_digit (c : Char) (r : List Char) (h : isDigitCh c = true) :
    splitDigits (c :: r) = (c :: (splitDigits r).1, (splitDigits r).2) := by
  simp [splitDigits, h]

theorem splitDigits_cons_nondigit (c : Char) (r : List Char) (h : isDigitCh c = false) :
    splitDigits (c :: r) = ([], c :: r) := by
  simp [splitDigits, h]

theorem splitDigits_append (d r : List Char) (hd : ∀ c ∈ d, isDigitCh c = true) :
    splitDigits (d ++ r) = (d ++ (splitDigits r).1, (splitDigits r).2) := by
  induction d with
  | nil => simp
  | cons c d2 ih =>
    have hc : isDigitCh c = true := hd c (by simp)
    have ih2 := ih (fun x hx => hd x (by simp [hx]))
    simp only [List.cons_append]
    rw [splitDigits_cons_digit c _ hc, ih2]

theorem splitDigits_all (d : List Char) (hd : ∀ c ∈ d, isDigitCh c = true) :
    splitDigits d = (d, []) := by
  have h := splitDigits_append d [] hd
  simpa [splitDigits] using h

/-! ## Decimal string codec round trip -/

theorem isEmpty_false_of_ne_nil {α : Type} {l : List α} (h : l ≠ []) : l.isEmpty = false := by
  cases l with
  | nil => exact absurd rfl h
  | cons a r => rfl

theorem stripSign_minus (l : List Char) : stripSign ('-' :: l) = (true, l) := by
  simp [stripSign]

theorem stripSign_plus (l : List Char) : stripSign ('+' :: l) = (false, l) := by
  simp [stripSign]

theorem stripSign_cons_digit (c : Char) (r : List Char) (h : isDigitCh c = true) :
    stripSign (c :: r) = (false, c :: r) := by
  have h1 : c ≠ '-' := by intro he; rw [he] at h; exact absurd h (by decide)
  have h2 : c ≠ '+' := by intro he; rw [he] at h; exact absurd h (by decide)
  simp [stripSign, h1, h2]

theorem parseFrac_dot (r : List Char) : parseFrac ('.' :: r) = splitDigits r := by
  simp [parseFrac]

theorem parseFrac_ne_dot (c : Char) (r : List Char) (h : c ≠ '.') :
    parseFrac (c :: r) = ([], c :: r) := by
  simp [parseFrac, h]

theorem decBody_head_digit (c : ℕ) (e : ℤ) :
    ∃ c0 r0, decBody c e = c0 :: r0 ∧ isDigitCh c0 = true := by
  have hall := natDigits_all_digits c
  have hne := natDigits_ne_nil c
  obtain ⟨d0, t, hds⟩ := List.exists_cons_of_ne_nil hne
  have hd0 : isDigitCh d0 = true := hall d0 (by rw [hds]; simp)
  unfold decBody
  by_cases hplain : e ≤ 0 ∧ -6 ≤ e + ((natDigits c).length : ℤ) - 1
  · rw [if_pos hplain]
    by_cases he0 : e = 0
    · rw [if_pos he0, hds]
      exact ⟨d0, t, rfl, hd0⟩
    · rw [if_neg he0]
      by_cases hk : 1 ≤ ((natDigits c).length : ℤ) + e
      · rw [if_pos hk]
        have hk1 : 1 ≤ (((natDigits c).length : ℤ) + e).toNat := by omega
        rw [hds]
        obtain ⟨k2, hk2⟩ : ∃ k2, (((natDigits c).length : ℤ) + e).toNat = k2 + 1 :=
          ⟨(((natDigits c).length : ℤ) + e).toNat - 1, by omega⟩
        rw [hds] at hk2
        rw [hk2]
        exact ⟨d0, _, rfl, hd0⟩
      · rw [if_neg hk]
        exact ⟨'0', _, rfl, by decide⟩
  · rw [if_neg hplain, hds]
    cases t with
    | nil => exact ⟨d0, _, rfl, hd0⟩
    | cons t1 t2 => exact ⟨d0, _, rfl, hd0⟩

theorem parseExpTail_nil (neg : Bool) (digs : List Char) (fracLen : ℕ) :
    parseExpTail neg digs fracLen [] = some ⟨neg, digitsVal digs, -(fracLen : ℤ)⟩ := rfl

theorem splitDigits_rest (rest : List Char)
    (hrest : ∀ x r2, rest = x :: r2 → isDigitCh x = false) :
    splitDigits rest = ([], rest) := by
  cases rest with
  | nil => rfl
  | cons x r2 => exact splitDigits_cons_nondigit x r2 (hrest x r2 rfl)

theorem parseFrac_rest (rest : List Char)
    (hrest : ∀ x r2, rest = x :: r2 → x ≠ '.') :
    parseFrac rest = ([], rest) := by
  cases rest with
  | nil => rfl
  | cons x r2 => exact parseFrac_ne_dot x r2 (hrest x r2 rfl)

theorem parseExpTail_E (neg : Bool) (digs : List Char) (fracLen : ℕ) (sgnNeg : Bool)
    (adjDs : List Char) (hadjall : ∀ c ∈ adjDs, isDigitCh c = true) (hadjne : adjDs ≠ []) :
    parseExpTail neg digs fracLen ('E' :: (if sgnNeg then '-' else '+') :: adjDs) =
      some ⟨neg, digitsVal digs,
        (if sgnNeg then -(digitsVal adjDs : ℤ) else (digitsVal adjDs : ℤ)) - (fracLen : ℤ)⟩ := by
  have hstrip : stripSign ((if sgnNeg then '-' else '+') :: adjDs) = (sgnNeg, adjDs) := by
    cases sgnNeg
    · exact stripSign_plus adjDs
    · exact stripSign_minus adjDs
  simp only [parseExpTail, hstrip]
  rw [splitDigits_all _ hadjall]
  simp [isEmpty_false_of_ne_nil hadjne]

/-- Behaviour of the number scanner on a digit run, an optional point with a
second digit run, and a non-numeric tail. -/
theorem parseNoSign_shape (neg : Bool) (a b rest : List Char)
    (ha : ∀ c ∈ a, isDigitCh c = true) (hane : a ≠ [])
    (hb : ∀ c ∈ b, isDigitCh c = true)
    (hrest : ∀ x r2, rest = x :: r2 → isDigitCh x = false ∧ x ≠ '.') :
    parseNoSign neg ((if b.isEmpty then a else a ++ '.' :: b) ++ rest) =
      parseExpTail neg (a ++ b) b.length rest := by
  have hsrest : splitDigits rest = ([], rest) :=
    splitDigits_rest rest (fun x r2 hx => (hrest x r2 hx).1)
  have hfrest : parseFrac rest = ([], rest) :=
    parseFrac_rest rest (fun x r2 hx => (hrest x r2 hx).2)
  cases b with
  | nil =>
    rw [show (if ([] : List Char).isEmpty then a else a ++ '.' :: []) = a from rfl]
    unfold parseNoSign
    rw [splitDigits_append _ _ ha, hsrest]
    simp only [List.append_nil, hfrest]
    rw [if_neg (by simp [isEmpty_false_of_ne_nil hane])]
  | cons b0 b2 =>
    rw [show (if (b0 :: b2 : List Char).isEmpty then a else a ++ '.' :: (b0 :: b2)) =
      a ++ '.' :: (b0 :: b2) from rfl]
    have hshape : (a ++ '.' :: (b0 :: b2)) ++ rest = a ++ '.' :: ((b0 :: b2) ++ rest) := by
      simp
    rw [hshape]
    unfold parseNoSign
    rw [splitDigits_append _ _ ha, splitDigits_cons_nondigit '.' _ (by decide)]
    simp only [List.append_nil, parseFrac_dot]
    rw [splitDigits_append _ _ hb, hsrest]
    simp only [List.append_nil]
    rw [if_neg (by simp [isEmpty_false_of_ne_nil hane])]

theorem parseNoSign_decBody (neg : Bool) (c : ℕ) (e : ℤ) :
    parseNoSign neg (decBody c e) = some ⟨neg, c, e⟩ := by
  have hall := natDigits_all_digits c
  have hne := natDigits_ne_nil c
  have hlen : 1 ≤ (natDigits c).length := List.length_pos.mpr hne
  have hnorest : ∀ (x : Char) (r2 : List Char), ([] : List Char) = x :: r2 →
      isDigitCh x = false ∧ x ≠ '.' := by intro x r2 h; cases h
  unfold decBody
  by_cases hplain : e ≤ 0 ∧ -6 ≤ e + ((natDigits c).length : ℤ) - 1
  · rw [if_pos hplain]
    by_cases he0 : e = 0
    · -- plain notation, exponent zero: just the digits
      rw [if_pos he0]
      have hshape : natDigits c =
          (if ([] : List Char).isEmpty then natDigits c else natDigits c ++ '.' :: []) ++ [] := by
        simp
      rw [hshape, parseNoSign_shape neg _ [] [] hall hne (by simp) hnorest, parseExpTail_nil]
      simp [digitsVal_natDigits, he0]
    · rw [if_neg he0]
      have helt : e < 0 := by
        rcases hplain with ⟨h1, _⟩
        omega
      by_cases hk : 1 ≤ ((natDigits c).length : ℤ) + e
      · -- plain notation with an interior point
        rw [if_pos hk]
        have hkZ : ((((natDigits c).length : ℤ) + e).toNat : ℤ) =
            ((natDigits c).length : ℤ) + e := Int.toNat_of_nonneg (by omega)
        have hk_le : (((natDigits c).length : ℤ) + e).toNat ≤ (natDigits c).length := by omega
        have htake : ∀ x ∈ (natDigits c).take ((((natDigits c).length : ℤ) + e)).toNat,
            isDigitCh x = true := fun x hx => hall x (List.take_subset _ _ hx)
        have hdropd : ∀ x ∈ (natDigits c).drop ((((natDigits c).length : ℤ) + e)).toNat,
            isDigitCh x = true := fun x hx => hall x (List.drop_subset _ _ hx)
        have htne : (natDigits c).take ((((natDigits c).length : ℤ) + e)).toNat ≠ [] := by
          apply List.length_pos.mp
          rw [List.length_take]
          omega
        have hdne : ((natDigits c).drop ((((natDigits c).length : ℤ) + e)).toNat).isEmpty
            = false := by
          apply isEmpty_false_of_ne_nil
          apply List.length_pos.mp
          rw [List.length_drop]
          omega
        have hshape : (natDigits c).take ((((natDigits c).length : ℤ) + e)).toNat ++
            '.' :: (natDigits c).drop ((((natDigits c).length : ℤ) + e)).toNat =
            (if ((natDigits c).drop ((((natDigits c).length : ℤ) + e)).toNat).isEmpty then
              (natDigits c).take ((((natDigits c).length : ℤ) + e)).toNat
            else (natDigits c).take ((((natDigits c).length : ℤ) + e)).toNat ++
              '.' :: (natDigits c).drop ((((natDigits c).length : ℤ) + e)).toNat) ++ [] := by
          rw [hdne]
          simp
        rw [hshape, parseNoSign_shape neg _ _ [] htake htne hdropd hnorest, parseExpTail_nil,
          List.take_append_drop, digitsVal_natDigits]
        simp only [Option.some.injEq, PyDecimal.mk.injEq, true_and]
        rw [List.length_drop]
        omega
      · -- plain notation with leading zeros: 0.00...digits
        rw [if_neg hk]
        have hmZ : (((-(((natDigits c).length : ℤ) + e)).toNat : ℤ)) =
            -(((natDigits c).length : ℤ) + e) := Int.toNat_of_nonneg (by omega)
        have hrepall : ∀ x ∈ List.replicate (-(((natDigits c).length : ℤ) + e)).toNat '0' ++
            natDigits c, isDigitCh x = true := by
          intro x hx
          rcases List.mem_append.mp hx with hx | hx
          · rw [List.eq_of_mem_replicate hx]; decide
          · exact hall x hx
        have hrne : (List.replicate (-(((natDigits c).length : ℤ) + e)).toNat '0' ++
            natDigits c).isEmpty = false := by
          apply isEmpty_false_of_ne_nil
          simp [hne]
        have hshape : ('0' :: '.' :: (List.replicate (-(((natDigits c).length : ℤ) + e)).toNat
            '0' ++ natDigits c)) =
            (if (List.replicate (-(((natDigits c).length : ℤ) + e)).toNat '0' ++
              natDigits c).isEmpty then ['0']
            else ['0'] ++ '.' :: (List.replicate (-(((natDigits c).length : ℤ) + e)).toNat '0' ++
              natDigits c)) ++ [] := by
          rw [hrne]
          simp
        rw [hshape, parseNoSign_shape neg ['0'] _ [] (by intro x hx; simp at hx; rw [hx]; decide)
          (by simp) hrepall hnorest, parseExpTail_nil]
        have hdigs : digitsVal (['0'] ++ (List.replicate
            (-(((natDigits c).length : ℤ) + e)).toNat '0' ++ natDigits c)) = c := by
          have h1 : (['0'] ++ (List.replicate (-(((natDigits c).length : ℤ) + e)).toNat '0' ++
              natDigits c) : List Char) =
              List.replicate ((-(((natDigits c).length : ℤ) + e)).toNat + 1) '0' ++
              natDigits c := by
            rw [List.replicate_succ]
            simp
          rw [h1, digitsVal_replicate_zero, digitsVal_natDigits]
        rw [hdigs]
        simp only [List.length_append, List.length_replicate, Option.some.injEq,
          PyDecimal.mk.injEq, true_and]
        omega
  · -- exponential notation
    rw [if_neg hplain]
    obtain ⟨d0, t, hds⟩ := List.exists_cons_of_ne_nil hne
    have hd0 : isDigitCh d0 = true := hall d0 (by rw [hds]; simp)
    have htall : ∀ x ∈ t, isDigitCh x = true := by
      intro x hx
      exact hall x (by rw [hds]; exact List.mem_cons_of_mem d0 hx)
    have hadjall := natDigits_all_digits (e + ((natDigits c).length : ℤ) - 1).natAbs
    have hadjne := natDigits_ne_nil (e + ((natDigits c).length : ℤ) - 1).natAbs
    have hadjval := digitsVal_natDigits (e + ((natDigits c).length : ℤ) - 1).natAbs
    have hmant : mantChars (natDigits c) = if t.isEmpty then [d0] else [d0] ++ '.' :: t := by
      rw [hds]
      cases t with
      | nil => rfl
      | cons t1 t2 => rfl
    have hrestE : ∀ (x : Char) (r2 : List Char),
        ('E' :: (if e + ((natDigits c).length : ℤ) - 1 < 0 then '-' else '+') ::
          natDigits (e + ((natDigits c).length : ℤ) - 1).natAbs) = x :: r2 →
        isDigitCh x = false ∧ x ≠ '.' := by
      intro x r2 h
      rw [List.cons.injEq] at h
      rw [← h.1]
      exact ⟨by decide, by decide⟩
    have hsgnform : (if e + ((natDigits c).length : ℤ) - 1 < 0 then '-' else '+') =
        (if decide (e + ((natDigits c).length : ℤ) - 1 < 0) then '-' else '+') := by
      by_cases hadj : e + ((natDigits c).length : ℤ) - 1 < 0
      · rw [if_pos hadj, if_pos (by simp [hadj])]
      · rw [if_neg hadj, if_neg (by simp [hadj])]
    rw [hmant, parseNoSign_shape neg [d0] t _
      (by intro x hx; simp at hx; rw [hx]; exact hd0) (by simp) htall hrestE,
      hsgnform, parseExpTail_E neg _ _ _ _ hadjall hadjne]
    have hdigs : digitsVal ([d0] ++ t) = c := by
      have h1 : ([d0] ++ t : List Char) = natDigits c := by rw [hds]; rfl
      rw [h1, digitsVal_natDigits]
    rw [hdigs, hadjval]
    have hlent : ((natDigits c).length : ℤ) = (t.length : ℤ) + 1 := by
      rw [hds]
      simp
    simp only [Option.some.injEq, PyDecimal.mk.injEq, true_and]
    by_cases hadj : e + ((natDigits c).length : ℤ) - 1 < 0
    · rw [if_pos (show decide (e + ((natDigits c).length : ℤ) - 1 < 0) = true by
        simp [hadj])]
      omega
    · rw [if_neg (show ¬ decide (e + ((natDigits c).length : ℤ) - 1 < 0) = true by
        simp [hadj])]
      omega

/-! ## ISO-8601 codec round trip -/

theorem padNum_all_digits (w n : ℕ) : ∀ c ∈ padNum w n, isDigitCh c = true := by
  intro c hc
  unfold padNum at hc
  rcases List.mem_append.mp hc with hc | hc
  · rw [List.eq_of_mem_replicate hc]; decide
  · exact natDigits_all_digits n c hc

theorem padNum_length (w n : ℕ) (hw : 1 ≤ w) (h : n < tenPowNat w) :
    (padNum w n).length = w := by
  unfold padNum
  rw [List.length_append, List.length_replicate]
  have := length_natDigits_le n w hw h
  omega

theorem digitsVal_padNum (w n : ℕ) : digitsVal (padNum w n) = n := by
  unfold padNum
  rw [digitsVal_replicate_zero, digitsVal_natDigits]

theorem readFixed_padNum (w n : ℕ) (rest : List Char) (hw : 1 ≤ w) (h : n < tenPowNat w) :
    readFixed w (padNum w n ++ rest) = some (n, rest) := by
  have hall2 : (padNum w n).all isDigitCh = true := by
    rw [List.all_eq_true]
    exact fun c hc => padNum_all_digits w n c hc
  unfold readFixed
  rw [List.take_left' (padNum_length w n hw h), List.drop_left' (padNum_length w n hw h)]
  simp only []
  rw [padNum_length w n hw h, hall2]
  simp [digitsVal_padNum]

theorem expectCh_cons (c : Char) (l : List Char) : expectCh c (c :: l) = some l := by
  simp [expectCh]

theorem parseIso_isoChars (t : PyDateTime) (h : t.Valid) : parseIso (isoChars t) = some t := by
  obtain ⟨hy1, hy2, hm1, hm2, hd1, hd2, hh, hmin, hs, hms⟩ := h
  have hy : t.year < tenPowNat 4 := by
    have h4 : tenPowNat 4 = 10000 := rfl
    omega
  have hmo : t.month < tenPowNat 2 := by
    have h2 : tenPowNat 2 = 100 := rfl
    omega
  have hda : t.day < tenPowNat 2 := by
    have h2 : tenPowNat 2 = 100 := rfl
    omega
  have hho : t.hour < tenPowNat 2 := by
    have h2 : tenPowNat 2 = 100 := rfl
    omega
  have hmi : t.minute < tenPowNat 2 := by
    have h2 : tenPowNat 2 = 100 := rfl
    omega
  have hse : t.second < tenPowNat 2 := by
    have h2 : tenPowNat 2 = 100 := rfl
    omega
  have hmu : t.microsecond < tenPowNat 6 := by
    have h6 : tenPowNat 6 = 1000000 := rfl
    omega
  unfold parseIso isoChars
  simp only [List.append_assoc, List.cons_append]
  rw [readFixed_padNum 4 _ _ (by omega) hy]
  simp only [Option.bind_eq_bind, Option.some_bind]
  rw [expectCh_cons]
  simp only [Option.some_bind]
  rw [readFixed_padNum 2 _ _ (by omega) hmo]
  simp only [Option.some_bind]
  rw [expectCh_cons]
  simp only [Option.some_bind]
  rw [readFixed_padNum 2 _ _ (by omega) hda]
  simp only [Option.some_bind]
  rw [expectCh_cons]
  simp only [Option.some_bind]
  rw [readFixed_padNum 2 _ _ (by omega) hho]
  simp only [Option.some_bind]
  rw [expectCh_cons]
  simp only [Option.some_bind]
  rw [readFixed_padNum 2 _ _ (by omega) hmi]
  simp only [Option.some_bind]
  rw [expectCh_cons]
  simp only [Option.some_bind]
  by_cases hmicro : t.microsecond = 0
  · rw [if_pos hmicro]
    rw [readFixed_padNum 2 _ _ (by omega) hse]
    simp only [Option.some_bind]
    rw [← hmicro]
  · rw [if_neg hmicro]
    rw [readFixed_padNum 2 _ _ (by omega) hse]
    simp only [Option.some_bind]
    rw [show padNum 6 t.microsecond = padNum 6 t.microsecond ++ ([] : List Char) from
      (List.append_nil _).symm]
    rw [readFixed_padNum 6 _ _ (by omega) hmu]
    simp

theorem parseDec_decChars (d : PyDecimal) : parseDec (decChars d) = some d := by
  obtain ⟨neg, c, e⟩ := d
  obtain ⟨c0, r0, hb, hc0⟩ := decBody_head_digit c e
  cases neg with
  | false =>
    unfold decChars parseDec
    simp only [Bool.false_eq_true, if_false]
    rw [hb, stripSign_cons_digit c0 r0 hc0]
    simp only []
    rw [← hb]
    exact parseNoSign_decBody false c e
  | true =>
    unfold decChars parseDec
    simp only [if_true]
    rw [stripSign_minus]
    simp only []
    exact parseNoSign_decBody true c e

/-! ## Snapshot serialization round trip (claim C7) -/

theorem ofStr_toStr (d : PyDecimal) : PyDecimal.ofStr d.toStr = some d := by
  unfold PyDecimal.ofStr PyDecimal.toStr
  exact parseDec_decChars d

theorem ofIso_toIso (t : PyDateTime) (h : t.Valid) : PyDateTime.ofIso t.toIso = some t := by
  unfold PyDateTime.ofIso PyDateTime.toIso
  exact parseIso_isoChars t h

theorem fromDict_toDict (p : Position) (h : p.timestamp.Valid) :
    Position.fromDict (Position.toDict p) = some p := by
  simp only [Position.fromDict, Position.toDict]
  rw [ofStr_toStr, ofStr_toStr, ofStr_toStr, ofStr_toStr, ofIso_toIso p.timestamp h]
  simp only [Option.bind_eq_bind, Option.some_bind]

theorem optMapList_map_some {α β : Type} (f : β → Option α) (g : α → β) (l : List α)
    (h : ∀ x ∈ l, f (g x) = some x) : optMapList f (l.map g) = some l := by
  induction l with
  | nil => rfl
  | cons x r ih =>
    simp only [List.map_cons, optMapList]
    rw [h x (by simp), ih (fun y hy => h y (by simp [hy]))]

/-- C7: saving any snapshot to the positions file and then loading it back
yields a snapshot equal to the original: every position's Decimal fields
(size, entry price, market value, unrealized PnL) round-trip exactly through
their string serialization, and its timestamp round-trips through its
ISO-8601 serialization (`Load(Save(S)) = S`). -/
theorem C7_save_load_round_trip (S : List (String × PosMap))
    (h : ∀ e ∈ S, ∀ q ∈ e.2, (q.2).timestamp.Valid) :
    loadPositions (savePositions S) = S := by
  have hE : loadPositionsE (savePositions S) = some S := by
    unfold loadPositionsE savePositions
    apply optMapList_map_some
    intro a ha
    have hinner : optMapList (fun e2 => (Position.fromDict e2.2).map (fun p => (e2.1, p)))
        (a.2.map (fun e => (e.1, e.2.toDict))) = some a.2 := by
      apply optMapList_map_some
      intro q hq
      simp only []
      rw [fromDict_toDict q.2 (h a ha q hq)]
      simp
    simp only []
    rw [hinner]
    simp
  unfold loadPositions
  rw [hE]
  rfl

/-- C7 witness: the round trip holds on a concrete two-position snapshot. -/
theorem C7_witness :
    (∀ e ∈ snapW, ∀ q ∈ e.2, (q.2).timestamp.Valid) ∧
      loadPositions (savePositions snapW) = snapW :=
  ⟨by decide, C7_save_load_round_trip snapW (by decide)⟩

/-! ## Numeric value bridges for the Decimal model -/

theorem tenPowNat_pos (n : ℕ) : 0 < tenPowNat n := by
  induction n with
  | zero => decide
  | succ k ih =>
    show 0 < 10 * tenPowNat k
    omega

theorem tenPowNat_eq_pow (n : ℕ) : tenPowNat n = 10 ^ n := by
  induction n with
  | zero => rfl
  | succ k ih =>
    show 10 * tenPowNat k = 10 ^ (k + 1)
    rw [ih, pow_succ]
    ring

theorem qpow10_eq_zpow (x : ℤ) : qpow10 x = (10 : ℚ) ^ x := by
  cases x with
  | ofNat n =>
    show ((tenPowNat n : ℕ) : ℚ) = (10 : ℚ) ^ (Int.ofNat n)
    rw [tenPowNat_eq_pow, Int.ofNat_eq_natCast, zpow_natCast]
    push_cast
    ring
  | negSucc n =>
    show ((tenPowNat (n + 1) : ℕ) : ℚ)⁻¹ = (10 : ℚ) ^ (Int.negSucc n)
    rw [zpow_negSucc, tenPowNat_eq_pow]
    push_cast
    ring

theorem qpow10_pos (x : ℤ) : 0 < qpow10 x := by
  rw [qpow10_eq_zpow]
  positivity

theorem qpow10_add (x y : ℤ) : qpow10 (x + y) = qpow10 x * qpow10 y := by
  rw [qpow10_eq_zpow, qpow10_eq_zpow, qpow10_eq_zpow]
  exact zpow_add₀ (by norm_num) x y

theorem val_scaledAt (d : PyDecimal) (m : ℤ) (h : m ≤ d.exp) :
    d.val = ((d.scaledAt m : ℤ) : ℚ) * qpow10 m := by
  unfold PyDecimal.val PyDecimal.scaledAt
  have h1 : ((d.exp - m).toNat : ℤ) = d.exp - m := Int.toNat_of_nonneg (by omega)
  have h4 : (Int.ofNat (d.exp - m).toNat) + m = d.exp := by
    rw [Int.ofNat_eq_natCast]
    omega
  have h3 := qpow10_add (Int.ofNat (d.exp - m).toNat) m
  rw [h4] at h3
  have h5 : qpow10 (Int.ofNat (d.exp - m).toNat) = ((tenPowNat (d.exp - m).toNat : ℕ) : ℚ) := rfl
  rw [h3, h5]
  push_cast
  ring

theorem minExp_le_left (a b : PyDecimal) : minExp a b ≤ a.exp := by
  unfold minExp
  split <;> omega

theorem minExp_le_right (a b : PyDecimal) : minExp a b ≤ b.exp := by
  unfold minExp
  split <;> omega

theorem ltB_iff (a b : PyDecimal) : a.ltB b = true ↔ a.val < b.val := by
  unfold PyDecimal.ltB
  rw [decide_eq_true_iff, val_scaledAt a _ (minExp_le_left a b),
    val_scaledAt b _ (minExp_le_right a b),
    mul_lt_mul_right (qpow10_pos (minExp a b)), Int.cast_lt]

theorem leB_iff (a b : PyDecimal) : a.leB b = true ↔ a.val ≤ b.val := by
  unfold PyDecimal.leB
  rw [decide_eq_true_iff, val_scaledAt a _ (minExp_le_left a b),
    val_scaledAt b _ (minExp_le_right a b),
    mul_le_mul_right (qpow10_pos (minExp a b)), Int.cast_le]

theorem sgnInt_cast_abs (d : PyDecimal) : |((d.sgnInt : ℤ) : ℚ)| = ((d.coeff : ℕ) : ℚ) := by
  unfold PyDecimal.sgnInt
  by_cases hn : d.neg
  · rw [if_pos hn]
    push_cast
    rw [abs_neg, abs_of_nonneg (by positivity)]
  · rw [if_neg hn]
    push_cast
    rw [abs_of_nonneg (by positivity)]

theorem val_absD (d : PyDecimal) : d.absD.val = |d.val| := by
  unfold PyDecimal.val
  rw [abs_mul, abs_of_pos (qpow10_pos d.exp), sgnInt_cast_abs]
  have h1 : PyDecimal.sgnInt d.absD = (d.coeff : ℤ) := by
    unfold PyDecimal.absD PyDecimal.sgnInt
    simp
  have h2 : d.absD.exp = d.exp := rfl
  rw [h1, h2]
  push_cast
  ring

theorem isPos_iff (d : PyDecimal) : d.isPos = true ↔ 0 < d.val := by
  unfold PyDecimal.isPos PyDecimal.val
  rw [decide_eq_true_iff]
  constructor
  · intro h
    exact mul_pos (by exact_mod_cast h) (qpow10_pos d.exp)
  · intro h
    by_contra hneg
    push_neg at hneg
    have h2 : ((d.sgnInt : ℤ) : ℚ) ≤ 0 := by exact_mod_cast hneg
    have h3 : ((d.sgnInt : ℤ) : ℚ) * qpow10 d.exp ≤ 0 :=
      mul_nonpos_of_nonpos_of_nonneg h2 (le_of_lt (qpow10_pos d.exp))
    exact absurd h (not_lt.mpr h3)

theorem val_sub (a b : PyDecimal) : (a.sub b).val = a.val - b.val := by
  have hs : (if decide (a.scaledAt (minExp a b) - b.scaledAt (minExp a b) < 0) = true
      then -(((a.scaledAt (minExp a b) - b.scaledAt (minExp a b)).natAbs : ℕ) : ℤ)
      else (((a.scaledAt (minExp a b) - b.scaledAt (minExp a b)).natAbs : ℕ) : ℤ)) =
      a.scaledAt (minExp a b) - b.scaledAt (minExp a b) := by
    by_cases hn : a.scaledAt (minExp a b) - b.scaledAt (minExp a b) < 0
    · rw [if_pos (by simp [hn])]
      omega
    · rw [if_neg (by simp [hn])]
      omega
  have h1 : (a.sub b).val =
      ((a.scaledAt (minExp a b) - b.scaledAt (minExp a b) : ℤ) : ℚ) * qpow10 (minExp a b) := by
    unfold PyDecimal.sub PyDecimal.val PyDecimal.sgnInt
    simp only []
    rw [hs]
  rw [h1, val_scaledAt a _ (minExp_le_left a b), val_scaledAt b _ (minExp_le_right a b)]
  push_cast
  ring

/-! ## Change detection (claims C4, C5, C6) -/

theorem lookup_some_mem_keys {α : Type} (s : String) (l : List (String × α)) (v : α)
    (h : List.lookup s l = some v) : s ∈ l.map Prod.fst := by
  induction l with
  | nil => simp [List.lookup] at h
  | cons e r ih =>
    obtain ⟨k, w⟩ := e
    by_cases hk : s = k
    · simp [hk]
    · have hbeq : (s == k) = false := by simp [hk]
      rw [List.lookup, hbeq] at h
      simp only [List.map_cons, List.mem_cons]
      exact Or.inr (ih h)

theorem lookup_none_not_mem {α : Type} (s : String) (l : List (String × α))
    (h : List.lookup s l = none) : s ∉ l.map Prod.fst := by
  induction l with
  | nil => simp
  | cons e r ih =>
    obtain ⟨k, w⟩ := e
    by_cases hk : s = k
    · rw [List.lookup, (by simp [hk] : (s == k) = true)] at h
      cases h
    · have hbeq : (s == k) = false := by simp [hk]
      rw [List.lookup, hbeq] at h
      simp only [List.map_cons, List.mem_cons]
      rintro (rfl | hmem)
      · exact hk rfl
      · exact ih h hmem

theorem symbolChanges_opened (address : String) (old_positions new_positions : PosMap)
    (now : PyDateTime) (s : String) (np : Position)
    (ho : List.lookup s old_positions = none)
    (hn : List.lookup s new_positions = some np) :
    symbolChanges address old_positions new_positions now s =
      [⟨address, s, "opened", none, some np, np.market_value, now⟩] := by
  unfold symbolChanges
  rw [ho, hn]

theorem symbolChanges_closed (address : String) (old_positions new_positions : PosMap)
    (now : PyDateTime) (s : String) (op : Position)
    (ho : List.lookup s old_positions = some op)
    (hn : List.lookup s new_positions = none) :
    symbolChanges address old_positions new_positions now s =
      [⟨address, s, "closed", some op, none, op.market_value, now⟩] := by
  unfold symbolChanges
  rw [ho, hn]

theorem symbolChanges_none (address : String) (old_positions new_positions : PosMap)
    (now : PyDateTime) (s : String)
    (ho : List.lookup s old_positions = none)
    (hn : List.lookup s new_positions = none) :
    symbolChanges address old_positions new_positions now s = [] := by
  unfold symbolChanges
  rw [ho, hn]

theorem symbolChanges_both (address : String) (old_positions new_positions : PosMap)
    (now : PyDateTime) (s : String) (op np : Position)
    (ho : List.lookup s old_positions = some op)
    (hn : List.lookup s new_positions = some np) :
    symbolChanges address old_positions new_positions now s =
      (if Config.MIN_CHANGE_THRESHOLD.leB (np.market_value.sub op.market_value).absD then
        [⟨address, s,
          if (np.market_value.sub op.market_value).isPos then "increased" else "decreased",
          some op, some np, (np.market_value.sub op.market_value).absD, now⟩]
      else []) := by
  unfold symbolChanges
  rw [ho, hn]

theorem symbolChanges_symbol (address : String) (old_positions new_positions : PosMap)
    (now : PyDateTime) (s : String) :
    ∀ ch ∈ symbolChanges address old_positions new_positions now s, ch.symbol = s := by
  intro ch hch
  cases ho : List.lookup s old_positions with
  | none =>
    cases hn : List.lookup s new_positions with
    | none =>
      rw [symbolChanges_none address _ _ now s ho hn] at hch
      cases hch
    | some np =>
      rw [symbolChanges_opened address _ _ now s np ho hn] at hch
      rw [List.mem_singleton.mp hch]
  | some op =>
    cases hn : List.lookup s new_positions with
    | none =>
      rw [symbolChanges_closed address _ _ now s op ho hn] at hch
      rw [List.mem_singleton.mp hch]
    | some np =>
      rw [symbolChanges_both address _ _ now s op np ho hn] at hch
      by_cases hc : Config.MIN_CHANGE_THRESHOLD.leB (np.market_value.sub op.market_value).absD
      · rw [if_pos hc] at hch
        rw [List.mem_singleton.mp hch]
      · rw [if_neg hc] at hch
        cases hch

theorem flatMap_eq_nil_of {α β : Type} (l : List α) (f : α → List β)
    (h : ∀ t ∈ l, f t = []) : l.flatMap f = [] := by
  induction l with
  | nil => rfl
  | cons t r ih =>
    rw [List.flatMap_cons, h t (by simp), List.nil_append]
    exact ih (fun x hx => h x (by simp [hx]))

theorem flatMap_filter_key {α : Type} (l : List String) (f : String → List α) (key : α → String)
    (hkey : ∀ t ∈ l, ∀ x ∈ f t, key x = t) (hnd : l.Nodup) (s : String) (hs : s ∈ l) :
    (l.flatMap f).filter (fun x => key x == s) = f s := by
  induction l with
  | nil => cases hs
  | cons t r ih =>
    rw [List.flatMap_cons, List.filter_append]
    rcases List.mem_cons.mp hs with rfl | hsr
    · have h1 : (f s).filter (fun x => key x == s) = f s := by
        rw [List.filter_eq_self]
        intro x hx
        simp [hkey s (by simp) x hx]
      have h2 : (r.flatMap f).filter (fun x => key x == s) = [] := by
        rw [List.filter_eq_nil_iff]
        intro x hx
        obtain ⟨t2, ht2, hxf⟩ := List.mem_flatMap.mp hx
        have hne : t2 ≠ s := by
          intro he
          subst he
          exact (List.nodup_cons.mp hnd).1 ht2
        simp [hkey t2 (by simp [ht2]) x hxf, hne]
      rw [h1, h2, List.append_nil]
    · have hts : t ≠ s := by
        intro he
        subst he
        exact (List.nodup_cons.mp hnd).1 hsr
      have h1 : (f t).filter (fun x => key x == s) = [] := by
        rw [List.filter_eq_nil_iff]
        intro x hx
        simp [hkey t (by simp) x hx, hts]
      rw [h1, List.nil_append]
      exact ih (fun t2 ht2 x hx => hkey t2 (by simp [ht2]) x hx) (List.nodup_cons.mp hnd).2 hsr

theorem detect_filter_eq (address : String) (old_positions new_positions : PosMap)
    (now : PyDateTime) (s : String)
    (hs : s ∈ (old_positions.map Prod.fst ++ new_positions.map Prod.fst).dedup) :
    (detectChanges address old_positions new_positions now).filter (fun ch => ch.symbol == s) =
      symbolChanges address old_positions new_positions now s := by
  unfold detectChanges
  exact flatMap_filter_key _ _ _
    (fun t _ x hx => symbolChanges_symbol address old_positions new_positions now t x hx)
    (List.nodup_dedup _) s hs

theorem detect_symbols_mem (address : String) (old_positions new_positions : PosMap)
    (now : PyDateTime) :
    ∀ ch ∈ detectChanges address old_positions new_positions now,
      ch.symbol ∈ (old_positions.map Prod.fst ++ new_positions.map Prod.fst).dedup := by
  intro ch hch
  unfold detectChanges at hch
  obtain ⟨t, ht, hcht⟩ := List.mem_flatMap.mp hch
  rw [symbolChanges_symbol address old_positions new_positions now t ch hcht]
  exact ht

theorem sub_self_zero (x : PyDecimal) : x.sub x = ⟨false, 0, x.exp⟩ := by
  unfold PyDecimal.sub minExp
  simp

theorem threshold_val_500 : Config.MIN_CHANGE_THRESHOLD.val = 500 := by
  unfold Config.MIN_CHANGE_THRESHOLD PyDecimal.val PyDecimal.sgnInt qpow10
  norm_num [tenPowNat]

theorem min_position_val_1000 : Config.MIN_POSITION_SIZE.val = 1000 := by
  unfold Config.MIN_POSITION_SIZE PyDecimal.val PyDecimal.sgnInt qpow10
  norm_num [tenPowNat]

theorem zero_dec_val (ex : ℤ) : (⟨false, 0, ex⟩ : PyDecimal).val = 0 := by
  unfold PyDecimal.val PyDecimal.sgnInt
  simp

theorem threshold_not_le_zero (ex : ℤ) :
    Config.MIN_CHANGE_THRESHOLD.leB (PyDecimal.absD ⟨false, 0, ex⟩) = false := by
  by_contra hcon
  rw [Bool.not_eq_false, leB_iff, val_absD, zero_dec_val, threshold_val_500] at hcon
  norm_num at hcon

/-- C6: running the change detector with the same snapshot as both previous
and current positions returns the empty list of changes:
`Detect(addr, S, S) = []`. -/
theorem C6_self_diff_empty (address : String) (S : PosMap) (now : PyDateTime) :
    detectChanges address S S now = [] := by
  unfold detectChanges
  apply flatMap_eq_nil_of
  intro s _
  cases h : List.lookup s S with
  | none => exact symbolChanges_none address S S now s h h
  | some op =>
    rw [symbolChanges_both address S S now s op op h h, sub_self_zero]
    rw [if_neg (by simp [threshold_not_le_zero op.market_value.exp])]

/-- C4: for a symbol present in both snapshots, with
`delta = current.marketValue - previous.marketValue`: if
`|delta| ≥ MIN_CHANGE_THRESHOLD` the detector emits exactly one change for
that symbol — kind `increased` when delta is positive, `decreased` when
negative — whose magnitude equals `|delta|`; if `|delta| <
MIN_CHANGE_THRESHOLD` it emits no change for that symbol. -/
theorem C4_threshold_rule (address : String) (old_positions new_positions : PosMap)
    (now : PyDateTime) (s : String) (op np : Position)
    (ho : List.lookup s old_positions = some op)
    (hn : List.lookup s new_positions = some np) :
    (Config.MIN_CHANGE_THRESHOLD.val ≤ |np.market_value.val - op.market_value.val| →
      (detectChanges address old_positions new_positions now).filter
          (fun ch => ch.symbol == s) =
        [⟨address, s,
          if 0 < np.market_value.val - op.market_value.val then "increased" else "decreased",
          some op, some np, (np.market_value.sub op.market_value).absD, now⟩] ∧
      ((np.market_value.sub op.market_value).absD).val =
        |np.market_value.val - op.market_value.val|) ∧
    (|np.market_value.val - op.market_value.val| < Config.MIN_CHANGE_THRESHOLD.val →
      (detectChanges address old_positions new_positions now).filter
        (fun ch => ch.symbol == s) = []) := by
  have hs : s ∈ (old_positions.map Prod.fst ++ new_positions.map Prod.fst).dedup :=
    List.mem_dedup.mpr (List.mem_append.mpr (Or.inl (lookup_some_mem_keys s _ op ho)))
  have habs : ((np.market_value.sub op.market_value).absD).val =
      |np.market_value.val - op.market_value.val| := by
    rw [val_absD, val_sub]
  have hcond : Config.MIN_CHANGE_THRESHOLD.leB (np.market_value.sub op.market_value).absD = true ↔
      Config.MIN_CHANGE_THRESHOLD.val ≤ |np.market_value.val - op.market_value.val| := by
    rw [leB_iff, habs]
  have hkind : (np.market_value.sub op.market_value).isPos = true ↔
      0 < np.market_value.val - op.market_value.val := by
    rw [isPos_iff, val_sub]
  constructor
  · intro h
    rw [detect_filter_eq address _ _ now s hs, symbolChanges_both address _ _ now s op np ho hn,
      if_pos (hcond.mpr h)]
    refine ⟨?_, habs⟩
    by_cases hp : 0 < np.market_value.val - op.market_value.val
    · rw [if_pos (hkind.mpr hp), if_pos hp]
    · rw [if_neg (fun hc => hp (hkind.mp hc)), if_neg hp]
  · intro h
    rw [detect_filter_eq address _ _ now s hs, symbolChanges_both address _ _ now s op np ho hn,
      if_neg (fun hc => absurd (hcond.mp hc) (not_le.mpr h))]

/-- C4 witness: ETH market value growing from 25000 to 37500 (delta 12500,
threshold 500) yields exactly one increased change of magnitude 12500. -/
theorem C4_witness :
    Config.MIN_CHANGE_THRESHOLD.val ≤
        |posEth37W.market_value.val - posEthW.market_value.val| ∧
      (detectChanges "0xA" [("ETH", posEthW)] [("ETH", posEth37W)] t0W).filter
          (fun ch => ch.symbol == "ETH") =
        [⟨"0xA", "ETH", "increased", some posEthW, some posEth37W,
          (posEth37W.market_value.sub posEthW.market_value).absD, t0W⟩] := by
  have hth : Config.MIN_CHANGE_THRESHOLD.val ≤
      |posEth37W.market_value.val - posEthW.market_value.val| := by
    have h1 := (leB_iff Config.MIN_CHANGE_THRESHOLD
      ((posEth37W.market_value.sub posEthW.market_value).absD)).mp (by decide)
    rw [val_absD, val_sub] at h1
    exact h1
  have hpos : 0 < posEth37W.market_value.val - posEthW.market_value.val := by
    have h2 := (isPos_iff (posEth37W.market_value.sub posEthW.market_value)).mp (by decide)
    rw [val_sub] at h2
    exact h2
  have h := (C4_threshold_rule "0xA" [("ETH", posEthW)] [("ETH", posEth37W)] t0W "ETH"
    posEthW posEth37W rfl rfl).1 hth
  refine ⟨hth, ?_⟩
  rw [h.1, if_pos hpos]

/-- C5: a symbol only in the current snapshot yields exactly one `opened`
change whose magnitude is the current position's market value; a symbol only
in the previous snapshot yields exactly one `closed` change whose magnitude
is the previous position's market value; a symbol absent from both snapshots
yields no event. -/
theorem C5_open_close_rule (address : String) (old_positions new_positions : PosMap)
    (now : PyDateTime) (s : String) :
    (∀ np : Position, List.lookup s old_positions = none →
      List.lookup s new_positions = some np →
      (detectChanges address old_positions new_positions now).filter
          (fun ch => ch.symbol == s) =
        [⟨address, s, "opened", none, some np, np.market_value, now⟩]) ∧
    (∀ op : Position, List.lookup s old_positions = some op →
      List.lookup s new_positions = none →
      (detectChanges address old_positions new_positions now).filter
          (fun ch => ch.symbol == s) =
        [⟨address, s, "closed", some op, none, op.market_value, now⟩]) ∧
    (List.lookup s old_positions = none → List.lookup s new_positions = none →
      (detectChanges address old_positions new_positions now).filter
        (fun ch => ch.symbol == s) = []) := by
  refine ⟨?_, ?_, ?_⟩
  · intro np ho hn
    have hs : s ∈ (old_positions.map Prod.fst ++ new_positions.map Prod.fst).dedup :=
      List.mem_dedup.mpr (List.mem_append.mpr (Or.inr (lookup_some_mem_keys s _ np hn)))
    rw [detect_filter_eq address _ _ now s hs,
      symbolChanges_opened address _ _ now s np ho hn]
  · intro op ho hn
    have hs : s ∈ (old_positions.map Prod.fst ++ new_positions.map Prod.fst).dedup :=
      List.mem_dedup.mpr (List.mem_append.mpr (Or.inl (lookup_some_mem_keys s _ op ho)))
    rw [detect_filter_eq address _ _ now s hs,
      symbolChanges_closed address _ _ now s op ho hn]
  · intro ho hn
    rw [List.filter_eq_nil_iff]
    intro ch hch
    have hmem := detect_symbols_mem address old_positions new_positions now ch hch
    have hnmem : s ∉ (old_positions.map Prod.fst ++ new_positions.map Prod.fst).dedup := by
      rw [List.mem_dedup]
      intro hcon
      rcases List.mem_append.mp hcon with hcon | hcon
      · exact lookup_none_not_mem s _ ho hcon
      · exact lookup_none_not_mem s _ hn hcon
    have hne : ch.symbol ≠ s := fun he => hnmem (he ▸ hmem)
    simp [hne]

/-- C5 witness: a BTC position appearing in the current snapshot only yields
exactly one opened change with the current market value as magnitude. -/
theorem C5_witness :
    List.lookup "BTC" ([] : PosMap) = none ∧
      List.lookup "BTC" [("BTC", posBtcW)] = some posBtcW ∧
      (detectChanges "0xA" [] [("BTC", posBtcW)] t0W).filter (fun ch => ch.symbol == "BTC") =
        [⟨"0xA", "BTC", "opened", none, some posBtcW, posBtcW.market_value, t0W⟩] :=
  ⟨rfl, rfl, (C5_open_close_rule "0xA" [] [("BTC", posBtcW)] t0W "BTC").1 posBtcW rfl rfl⟩

/-! ## Ingestion floor versus point query (claim C10) -/

theorem mem_dictInsert {α : Type} (m : List (String × α)) (k : String) (v : α) :
    ∀ e ∈ dictInsert m k v, e ∈ m ∨ e = (k, v) := by
  induction m with
  | nil =>
    intro e he
    simp only [dictInsert] at he
    right
    simpa using he
  | cons p r ih =>
    intro e he
    obtain ⟨k1, v1⟩ := p
    unfold dictInsert at he
    by_cases hk : k1 = k
    · rw [if_pos hk] at he
      rcases List.mem_cons.mp he with rfl | hmem
      · right
        rfl
      · left
        exact List.mem_cons_of_mem _ hmem
    · rw [if_neg hk] at he
      rcases List.mem_cons.mp he with rfl | hmem
      · left
        simp
      · rcases ih e hmem with h | h
        · left
          exact List.mem_cons_of_mem _ h
        · right
          exact h

theorem keys_dictInsert_self {α : Type} (m : List (String × α)) (k : String) (v : α) :
    k ∈ (dictInsert m k v).map Prod.fst := by
  induction m with
  | nil => simp [dictInsert]
  | cons p r ih =>
    obtain ⟨k1, v1⟩ := p
    unfold dictInsert
    by_cases hk : k1 = k
    · rw [if_pos hk]
      simp
    · rw [if_neg hk]
      simp only [List.map_cons, List.mem_cons]
      exact Or.inr ih

theorem keys_dictInsert_mono {α : Type} (m : List (String × α)) (k : String) (v : α)
    (key : String) (h : key ∈ m.map Prod.fst) : key ∈ (dictInsert m k v).map Prod.fst := by
  induction m with
  | nil => simp at h
  | cons p r ih =>
    obtain ⟨k1, v1⟩ := p
    unfold dictInsert
    by_cases hk : k1 = k
    · rw [if_pos hk]
      simp only [List.map_cons, List.mem_cons] at h ⊢
      rcases h with h | h
      · exact Or.inl (h.trans hk)
      · exact Or.inr h
    · rw [if_neg hk]
      simp only [List.map_cons, List.mem_cons] at h ⊢
      rcases h with h | h
      · exact Or.inl h
      · exact Or.inr (ih h)

theorem foldl_keys_mono {α β : Type} (step : List (String × α) → β → List (String × α))
    (hstep : ∀ acc rp key, key ∈ acc.map Prod.fst → key ∈ (step acc rp).map Prod.fst) :
    ∀ (rps : List β) (acc : List (String × α)) (key : String),
      key ∈ acc.map Prod.fst → key ∈ (rps.foldl step acc).map Prod.fst := by
  intro rps
  induction rps with
  | nil => intro acc key h; exact h
  | cons rp rest ih =>
    intro acc key h
    exact ih (step acc rp) key (hstep acc rp key h)

theorem foldl_values_pred {α β : Type} (step : List (String × α) → β → List (String × α))
    (P : String × α → Prop)
    (hstep : ∀ acc rp, (∀ e ∈ acc, P e) → ∀ e ∈ step acc rp, P e) :
    ∀ (rps : List β) (acc : List (String × α)),
      (∀ e ∈ acc, P e) → ∀ e ∈ rps.foldl step acc, P e := by
  intro rps
  induction rps with
  | nil => intro acc h; exact h
  | cons rp rest ih =>
    intro acc h
    exact ih (step acc rp) (hstep acc rp h)

theorem foldl_key_of_mem {α β : Type} (step : List (String × α) → β → List (String × α))
    (hmono : ∀ acc rp key, key ∈ acc.map Prod.fst → key ∈ (step acc rp).map Prod.fst)
    (cond : β → Prop) (keyOf : β → String)
    (hhit : ∀ acc rp, cond rp → keyOf rp ∈ (step acc rp).map Prod.fst) :
    ∀ (rps : List β) (acc : List (String × α)) (rp : β), rp ∈ rps → cond rp →
      keyOf rp ∈ (rps.foldl step acc).map Prod.fst := by
  intro rps
  induction rps with
  | nil =>
    intro acc rp h
    cases h
  | cons q rest ih =>
    intro acc rp hmem hc
    rcases List.mem_cons.mp hmem with rfl | hmem2
    · simp only [List.foldl_cons]
      exact foldl_keys_mono step hmono rest (step acc rp) _ (hhit acc rp hc)
    · simp only [List.foldl_cons]
      exact ih (step acc q) rp hmem2 hc

theorem queryStep_keys_mono (acc : List (String × QueryPosition)) (rp : RawPosition)
    (key : String) (h : key ∈ acc.map Prod.fst) : key ∈ (queryStep acc rp).map Prod.fst := by
  unfold queryStep
  by_cases hz : rp.szi.isZero = true
  · simpa [hz] using h
  · rw [Bool.not_eq_true] at hz
    simp only [hz, Bool.false_eq_true, if_false]
    exact keys_dictInsert_mono _ _ _ _ h

/-- C10: the read-only point query (the check command) applies only the
zero-size filter — every fetched raw position with nonzero size reaches its
result, even when its market value is below `MIN_POSITION_SIZE` — whereas the
tracking ingestion path never admits a position below the floor into the
snapshot (every stored position has market value at least the floor). -/
theorem C10_floor_asymmetry (rps : List RawPosition) (now : PyDateTime) :
    (∀ rp ∈ rps, rp.szi.isZero = false →
      (rp.szi.absD.mul (rp.entryPx.getD ⟨false, 0, 0⟩)).val < Config.MIN_POSITION_SIZE.val →
      rp.coin ∈ (buildQueryPositions rps).map Prod.fst) ∧
    (∀ e ∈ buildPositions now rps, Config.MIN_POSITION_SIZE.val ≤ e.2.market_value.val) := by
  constructor
  · intro rp hmem hsz _
    unfold buildQueryPositions
    apply foldl_key_of_mem queryStep queryStep_keys_mono
      (fun q => q.szi.isZero = false) RawPosition.coin ?hhit rps [] rp hmem hsz
    case hhit =>
      intro acc q hq
      unfold queryStep
      simp only [hq, Bool.false_eq_true, if_false]
      exact keys_dictInsert_self _ _ _
  · intro e he
    unfold buildPositions at he
    refine foldl_values_pred (trackStep now)
      (fun e2 => Config.MIN_POSITION_SIZE.val ≤ e2.2.market_value.val) ?hstep rps [] (by simp)
      e he
    case hstep =>
      intro acc rp hacc e2 he2
      unfold trackStep at he2
      by_cases hz : rp.szi.isZero = true
      · rw [if_pos hz] at he2
        exact hacc e2 he2
      · rw [Bool.not_eq_true] at hz
        rw [hz] at he2
        simp only [Bool.false_eq_true, if_false] at he2
        by_cases hlt :
            ((rp.szi.absD).mul (rp.entryPx.getD ⟨false, 0, 0⟩)).ltB Config.MIN_POSITION_SIZE = true
        · rw [if_pos hlt] at he2
          exact hacc e2 he2
        · rw [if_neg hlt] at he2
          rcases mem_dictInsert _ _ _ e2 he2 with h | h
          · exact hacc e2 h
          · rw [h]
            have hge : ¬ ((rp.szi.absD).mul (rp.entryPx.getD ⟨false, 0, 0⟩)).val <
                Config.MIN_POSITION_SIZE.val := fun hc => hlt ((ltB_iff _ _).mpr hc)
            exact le_of_not_lt hge

/-- C10 witness: a DOGE raw position with size 7 and entry 100 (market
value 700 < 1000) is included by the check query but rejected by the
tracking ingestion. -/
theorem C10_witness :
    rawDogeW.szi.isZero = false ∧
      (rawDogeW.szi.absD.mul (rawDogeW.entryPx.getD ⟨false, 0, 0⟩)).val <
        Config.MIN_POSITION_SIZE.val ∧
      "DOGE" ∈ (buildQueryPositions [rawDogeW]).map Prod.fst ∧
      buildPositions t0W [rawDogeW] = [] := by
  have hlt : (rawDogeW.szi.absD.mul (rawDogeW.entryPx.getD ⟨false, 0, 0⟩)).val <
      Config.MIN_POSITION_SIZE.val :=
    (ltB_iff (rawDogeW.szi.absD.mul (rawDogeW.entryPx.getD ⟨false, 0, 0⟩))
      Config.MIN_POSITION_SIZE).mp (by decide)
  refine ⟨rfl, hlt, ?_, by decide⟩
  exact (C10_floor_asymmetry [rawDogeW] t0W).1 rawDogeW (by simp) rfl hlt

/-! ## Broadcast delivery (claim C8) -/

theorem sendLoop_attempts (deliver : ℤ → DeliverResult) (message : String) :
    ∀ (ids : List ℤ) (users : List (String × UserInfo)),
      (sendLoop deliver message ids users).2.2 = ids.map (fun id => (id, message)) := by
  intro ids
  induction ids with
  | nil => intro users; rfl
  | cons id rest ih =>
    intro users
    unfold sendLoop
    simp only [List.map_cons]
    rw [ih]

theorem sendLoop_count (deliver : ℤ → DeliverResult) (message : String) :
    ∀ (ids : List ℤ) (users : List (String × UserInfo)),
      (sendLoop deliver message ids users).1 =
        (ids.filter (fun id => isOkResult (deliver id))).length := by
  intro ids
  induction ids with
  | nil => intro users; rfl
  | cons id rest ih =>
    intro users
    unfold sendLoop
    simp only [List.filter_cons]
    by_cases hok : isOkResult (deliver id) = true
    · simp only [hok, if_true, List.length_cons]
      rw [ih]
      omega
    · rw [Bool.not_eq_true] at hok
      simp only [hok, Bool.false_eq_true, if_false]
      rw [ih]
      omega

theorem sendLoop_users (deliver : ℤ → DeliverResult) (message : String) :
    ∀ (ids : List ℤ) (users : List (String × UserInfo)),
      (sendLoop deliver message ids users).2.1 =
        users.filter (fun e =>
          !(ids.any (fun id => isRemovalErr (deliver id) && (e.1 == toString id)))) := by
  intro ids
  induction ids with
  | nil =>
    intro users
    show users = _
    rw [List.filter_eq_self.mpr]
    intro e _
    simp
  | cons id rest ih =>
    intro users
    unfold sendLoop
    simp only []
    rw [ih]
    by_cases hrem : isRemovalErr (deliver id) = true
    · rw [if_pos hrem]
      unfold removeInvalidUser dictErase
      rw [List.filter_filter]
      apply List.filter_congr
      intro e _
      cases hx : (e.1 == toString id) <;>
        cases hy : rest.any (fun id2 => isRemovalErr (deliver id2) && (e.1 == toString id2)) <;>
        simp [hrem, hx, hy]
    · rw [Bool.not_eq_true] at hrem
      rw [if_neg (by simp [hrem])]
      apply List.filter_congr
      intro e _
      simp [hrem]

theorem isOk_iff (r : DeliverResult) : isOkResult r = true ↔ r = .ok := by
  cases r <;> simp [isOkResult]

theorem length_filter_pos_iff {α : Type} (l : List α) (p : α → Bool) :
    0 < (l.filter p).length ↔ ∃ x ∈ l, p x = true := by
  rw [List.length_pos, Ne, List.filter_eq_nil_iff]
  push_neg
  simp

/-- The nonempty-registry behaviour of `send_message`: every registered
recipient is attempted in order, success is reported iff at least one
delivery succeeded, and the final registry keeps exactly the recipients
whose delivery did not end in a `Chat not found` error. -/
theorem sendMessage_nonempty_spec (users : List (String × UserInfo)) (mainChatId : Option ℤ)
    (deliver : ℤ → DeliverResult) (message : String)
    (hne : users ≠ [])
    (hcanon : ∀ e ∈ users, e.1 = toString e.2.chat_id)
    (hkeys : (users.map Prod.fst).Nodup) :
    (sendMessage true users mainChatId deliver message).attempts =
      (users.map (fun e => e.2.chat_id)).map (fun id => (id, message)) ∧
    ((sendMessage true users mainChatId deliver message).ok = true ↔
      ∃ id ∈ users.map (fun e => e.2.chat_id), deliver id = .ok) ∧
    (sendMessage true users mainChatId deliver message).users =
      users.filter (fun e => !(isRemovalErr (deliver e.2.chat_id))) ∧
    (∀ e ∈ users, deliver e.2.chat_id = .timedOut →
      e ∈ (sendMessage true users mainChatId deliver message).users) := by
  have hids : (users.map (fun e => e.2.chat_id)).isEmpty = false := by
    cases users with
    | nil => exact absurd rfl hne
    | cons a r => rfl
  have hsm : sendMessage true users mainChatId deliver message =
      ⟨decide (0 < (sendLoop deliver message (users.map (fun e => e.2.chat_id)) users).1),
        (sendLoop deliver message (users.map (fun e => e.2.chat_id)) users).2.1,
        (sendLoop deliver message (users.map (fun e => e.2.chat_id)) users).2.2⟩ := by
    unfold sendMessage
    simp only [Bool.not_true, Bool.false_eq_true, if_false, hids]
  have husers : (sendMessage true users mainChatId deliver message).users =
      users.filter (fun e => !(isRemovalErr (deliver e.2.chat_id))) := by
    rw [hsm]
    show (sendLoop deliver message (users.map (fun e => e.2.chat_id)) users).2.1 = _
    rw [sendLoop_users]
    apply List.filter_congr
    intro e he
    congr 1
    by_cases hrm : isRemovalErr (deliver e.2.chat_id) = true
    · rw [hrm, List.any_eq_true]
      exact ⟨e.2.chat_id, List.mem_map.mpr ⟨e, he, rfl⟩, by simp [hrm, hcanon e he]⟩
    · rw [Bool.not_eq_true] at hrm
      rw [hrm]
      rw [List.any_eq_false]
      intro id hid
      obtain ⟨u, hu, rfl⟩ := List.mem_map.mp hid
      by_cases hek : e.1 = toString u.2.chat_id
      · have heu : e = u := List.inj_on_of_nodup_map hkeys he hu
          (by rw [hek, ← hcanon u hu])
        rw [← heu, hrm]
        simp
      · simp [hek]
  refine ⟨?_, ?_, husers, ?_⟩
  · rw [hsm]
    show (sendLoop deliver message (users.map (fun e => e.2.chat_id)) users).2.2 = _
    rw [sendLoop_attempts]
  · rw [hsm]
    show decide (0 < (sendLoop deliver message (users.map (fun e => e.2.chat_id)) users).1)
        = true ↔ _
    rw [decide_eq_true_iff, sendLoop_count, length_filter_pos_iff]
    constructor
    · rintro ⟨id, hid, hok⟩
      exact ⟨id, hid, (isOk_iff _).mp hok⟩
    · rintro ⟨id, hid, hok⟩
      exact ⟨id, hid, (isOk_iff _).mpr hok⟩
  · intro e he hto
    rw [husers]
    refine List.mem_filter.mpr ⟨he, ?_⟩
    rw [hto]
    rfl

/-- C8 counterexample: with no registered recipients but a configured main
chat id, `send_message` falls back to delivering to that single id and
reports success when the delivery succeeds — refuting the original claim
that the call reports failure whenever the recipient list is empty. -/
theorem C8_counterexample :
    (sendMessage true [] (some 5) (fun _ => DeliverResult.ok) "msg").ok = true ∧
      (sendMessage true [] (some 5) (fun _ => DeliverResult.ok) "msg").attempts =
        [(5, "msg")] := by
  exact ⟨by decide, by decide⟩

/-- C8 (amended): with registered recipients, broadcasting attempts a
delivery to every one of them in order even when some deliveries fail, the
call reports success iff at least one delivery succeeded, and the final
registry keeps exactly the recipients whose delivery did not end in a
`Chat not found` error — in particular a timed-out recipient remains
registered.  With no registered recipients the call reports failure only
when no main chat id is configured; otherwise it falls back to the main
chat id, attempting that single delivery and reporting its outcome. -/
theorem C8_broadcast_isolation (users : List (String × UserInfo)) (mainChatId : Option ℤ)
    (deliver : ℤ → DeliverResult) (message : String) (m : ℤ)
    (hcanon : ∀ e ∈ users, e.1 = toString e.2.chat_id)
    (hkeys : (users.map Prod.fst).Nodup) :
    (users ≠ [] →
      (sendMessage true users mainChatId deliver message).attempts =
          (users.map (fun e => e.2.chat_id)).map (fun id => (id, message)) ∧
        ((sendMessage true users mainChatId deliver message).ok = true ↔
          ∃ id ∈ users.map (fun e => e.2.chat_id), deliver id = .ok) ∧
        (sendMessage true users mainChatId deliver message).users =
          users.filter (fun e => !(isRemovalErr (deliver e.2.chat_id))) ∧
        (∀ e ∈ users, deliver e.2.chat_id = .timedOut →
          e ∈ (sendMessage true users mainChatId deliver message).users)) ∧
    (sendMessage true [] none deliver message).ok = false ∧
    (sendMessage true [] (some m) deliver message).attempts = [(m, message)] ∧
    ((sendMessage true [] (some m) deliver message).ok = true ↔ deliver m = .ok) := by
  refine ⟨fun hne =>
    sendMessage_nonempty_spec users mainChatId deliver message hne hcanon hkeys,
    rfl, rfl, ?_⟩
  show decide (0 < (if isOkResult (deliver m) = true then 1 else 0) + 0) = true ↔
    deliver m = DeliverResult.ok
  have hall : ∀ r : DeliverResult,
      decide (0 < (if isOkResult r = true then 1 else 0) + 0) = true ↔
        r = DeliverResult.ok := by
    intro r
    cases r <;> simp [isOkResult]
  exact hall (deliver m)

/-- C8 witness: of three registered recipients, the second times out — all
three are attempted in order, the broadcast reports success, and all three
recipients stay registered; with no registered recipients the broadcast
fails when no main chat id is set, and falls back to the single configured
main chat id otherwise. -/
theorem C8_witness :
    (sendMessage true usersW none deliverW "msg").attempts =
        [(1, "msg"), (2, "msg"), (3, "msg")] ∧
      (sendMessage true usersW none deliverW "msg").ok = true ∧
      (sendMessage true usersW none deliverW "msg").users = usersW ∧
      (sendMessage true [] none deliverW "msg").ok = false ∧
      (sendMessage true [] (some 2) deliverW "msg").ok = false ∧
      (sendMessage true [] (some 1) deliverW "msg").attempts = [(1, "msg")] := by
  have h := C8_broadcast_isolation usersW none deliverW "msg" 2 (by decide) (by decide)
  have h1 := C8_broadcast_isolation usersW none deliverW "msg" 1 (by decide) (by decide)
  have hn := h.1 (by decide)
  refine ⟨?_, ?_, ?_, h.2.1, ?_, h1.2.2.1⟩
  · rw [hn.1]
    decide
  · exact hn.2.1.mpr ⟨1, by decide, by decide⟩
  · rw [hn.2.2.1]
    decide
  · cases hx : (sendMessage true [] (some 2) deliverW "msg").ok
    · rfl
    · exact absurd (h.2.2.2.mp hx) (by decide)

/-! ## Opened-change suppression and snapshot recording (claim C9) -/

theorem lookup_dictInsert_self {α : Type} (m : List (String × α)) (k : String) (v : α) :
    List.lookup k (dictInsert m k v) = some v := by
  induction m with
  | nil => simp [dictInsert, List.lookup]
  | cons p r ih =>
    obtain ⟨k1, v1⟩ := p
    unfold dictInsert
    by_cases hk : k1 = k
    · rw [if_pos hk]
      simp [List.lookup]
    · rw [if_neg hk]
      have hbeq : (k == k1) = false := by
        simp only [beq_eq_false_iff_ne, ne_eq]
        exact fun h => hk h.symm
      rw [List.lookup, hbeq]
      exact ih

theorem lookup_dictInsert_ne {α : Type} (m : List (String × α)) (k : String) (v : α)
    (k2 : String) (h : k2 ≠ k) :
    List.lookup k2 (dictInsert m k v) = List.lookup k2 m := by
  have hb : (k2 == k) = false := by
    simp only [beq_eq_false_iff_ne, ne_eq]
    exact h
  induction m with
  | nil => simp [dictInsert, List.lookup, hb]
  | cons p r ih =>
    obtain ⟨k1, v1⟩ := p
    unfold dictInsert
    by_cases hk : k1 = k
    · rw [if_pos hk]
      have h2 : (k2 == k1) = false := by
        simp only [beq_eq_false_iff_ne, ne_eq]
        exact fun he => h (he.trans hk)
      rw [List.lookup, hb, List.lookup, h2]
    · rw [if_neg hk]
      by_cases h2 : k2 = k1
      · have hbeq : (k2 == k1) = true := by simp [h2]
        rw [List.lookup, hbeq, List.lookup, hbeq]
      · have hbeq : (k2 == k1) = false := by simp [h2]
        rw [List.lookup, hbeq, List.lookup, hbeq]
        exact ih

theorem cycle_lookup_not_mem (fetch : String → Except String (Option (List RawPosition)))
    (now : PyDateTime) (address : String) :
    ∀ (tracked : List String) (acc : List (String × PosMap) × List PositionChange),
      address ∉ tracked →
      List.lookup address (tracked.foldl (cycleStep fetch now) acc).1 =
        List.lookup address acc.1 := by
  intro tracked
  induction tracked with
  | nil => intro acc _; rfl
  | cons a rest ih =>
    intro acc hmem
    simp only [List.foldl_cons]
    have hna : address ≠ a := fun he => hmem (he ▸ List.mem_cons_self a rest)
    have hnr : address ∉ rest := fun hr => hmem (List.mem_cons_of_mem a hr)
    rw [ih (cycleStep fetch now acc a) hnr]
    unfold cycleStep
    exact lookup_dictInsert_ne _ _ _ _ hna

theorem cycle_lookup_mem (fetch : String → Except String (Option (List RawPosition)))
    (now : PyDateTime) (address : String) :
    ∀ (tracked : List String) (acc : List (String × PosMap) × List PositionChange),
      address ∈ tracked →
      List.lookup address (tracked.foldl (cycleStep fetch now) acc).1 =
        some (getUserPositions (fetch address) now) := by
  intro tracked
  induction tracked with
  | nil =>
    intro acc h
    cases h
  | cons a rest ih =>
    intro acc hmem
    simp only [List.foldl_cons]
    by_cases hr : address ∈ rest
    · exact ih (cycleStep fetch now acc a) hr
    · have haddr : address = a := by
        rcases List.mem_cons.mp hmem with h | h
        · exact h
        · exact absurd h hr
      rw [cycle_lookup_not_mem fetch now address rest (cycleStep fetch now acc a) hr]
      subst haddr
      unfold cycleStep
      exact lookup_dictInsert_self _ _ _

theorem not_isEmpty_iff_ne_nil {α : Type} (l : List α) : (!l.isEmpty) = true ↔ l ≠ [] := by
  cases l <;> simp

/-- C9: dispatching a change of kind `opened` sends no outbound notification
and reports success; changes of kind `closed`, `increased` and `decreased`
are handed to the broadcast; meanwhile the cycle still records the fetched
positions (including any opened one) in the stored snapshot slice of each
tracked address, and persists exactly when the cycle produced changes. -/
theorem C9_opened_suppressed (enabled : Bool) (users : List (String × UserInfo))
    (mainChatId : Option ℤ) (deliver : ℤ → DeliverResult)
    (render : PositionChange → String) (ch ch2 : PositionChange)
    (hopen : ch.change_type = "opened")
    (hkind : ch2.change_type = "closed" ∨ ch2.change_type = "increased" ∨
      ch2.change_type = "decreased")
    (tracked : List String) (fetch : String → Except String (Option (List RawPosition)))
    (now : PyDateTime) (st : List (String × PosMap)) (address : String)
    (haddr : address ∈ tracked) :
    sendPositionChange enabled users mainChatId deliver render ch = ⟨true, users, []⟩ ∧
    sendPositionChange enabled users mainChatId deliver render ch2 =
      sendMessage enabled users mainChatId deliver (render ch2) ∧
    List.lookup address (checkAllAddresses tracked fetch now st).state =
      some (getUserPositions (fetch address) now) ∧
    ((checkAllAddresses tracked fetch now st).saved = true ↔
      (checkAllAddresses tracked fetch now st).changes ≠ []) := by
  refine ⟨?_, ?_, ?_, ?_⟩
  · unfold sendPositionChange
    rw [show (!Config.TELEGRAM_SEND_POSITION_CHANGES) = false from rfl]
    simp only [Bool.false_eq_true, if_false]
    rw [if_pos (by simp [hopen])]
  · unfold sendPositionChange
    rw [show (!Config.TELEGRAM_SEND_POSITION_CHANGES) = false from rfl]
    simp only [Bool.false_eq_true, if_false]
    have hne : (ch2.change_type == "opened") = false := by
      rcases hkind with h | h | h <;> simp [h]
    rw [if_neg (by simp [hne])]
  · unfold checkAllAddresses
    exact cycle_lookup_mem fetch now address tracked (st, []) haddr
  · unfold checkAllAddresses
    exact not_isEmpty_iff_ne_nil _

/-- C9 witness: an opened BTC change is suppressed while a closed change is
broadcast, and the cycle for address `0xB` records the fetched BTC position
in the snapshot slice. -/
theorem C9_witness :
    chOpenW.change_type = "opened" ∧ chCloseW.change_type = "closed" ∧
      sendPositionChange true usersW none deliverW renderW chOpenW = ⟨true, usersW, []⟩ ∧
      sendPositionChange true usersW none deliverW renderW chCloseW =
        sendMessage true usersW none deliverW (renderW chCloseW) ∧
      List.lookup "0xB" (checkAllAddresses ["0xB"] fetchW t0W []).state =
        some (getUserPositions (fetchW "0xB") t0W) := by
  have h := C9_opened_suppressed true usersW none deliverW renderW chOpenW chCloseW rfl
    (Or.inl rfl) ["0xB"] fetchW t0W [] "0xB" (by decide)
  exact ⟨rfl, rfl, h.1, h.2.1, h.2.2.1⟩

/-! ## Fetch-error handling in the polling cycle (claim C1) -/

/-- C1: the code diverges from the claim.  When the fetch for address `0xA`
raises, `get_user_positions` swallows the error and returns an empty
position map; `check_all_addresses` then diffs the stored ETH position
against that empty map, emits a spurious `closed` change, and overwrites the
`0xA` snapshot slice with the empty map — instead of skipping the address
for the cycle and leaving its slice unchanged with no events.  (The
independent part of the claim does hold: the other address `0xB` is still
processed normally, and the wiped state is persisted because changes were
found.) -/
theorem C1_fetch_error_wipes_slice :
    checkAllAddresses ["0xA", "0xB"] fetchW t0W
        [("0xA", [("ETH", posEthW)]), ("0xB", [])] =
      ⟨[("0xA", []), ("0xB", [("BTC", posBtcW)])],
        [⟨"0xA", "ETH", "closed", some posEthW, none, posEthW.market_value, t0W⟩,
          ⟨"0xB", "BTC", "opened", none, some posBtcW, posBtcW.market_value, t0W⟩],
        true⟩ := by
  decide

/-! ## Persistence of add/remove (claim C2) -/

/-- C2 counterexample: starting from an empty state, an `/add` with a valid
address succeeds even though the durable write fails — the reply is the
success message, the in-memory dict gains the address, but the file still
holds its old (empty) content.  `_save_dynamic_addresses` catches the write
error, logs it and returns normally, so the failure is never surfaced to
`handle_add_command`, refuting the claim. -/
theorem C2_counterexample :
    (handleAddCommand ⟨[], [], []⟩ 7 (some "u") (some "U") "t" [addArgW] "a" false).reply =
        AddReply.success ∧
      (handleAddCommand ⟨[], [], []⟩ 7 (some "u") (some "U") "t" [addArgW] "a" false
        ).st.dynamic_addresses = [(goodAddrW, "Whale")] ∧
      (handleAddCommand ⟨[], [], []⟩ 7 (some "u") (some "U") "t" [addArgW] "a" false
        ).st.file_addresses = [] := by
  exact ⟨by decide, by decide, by decide⟩

/-- C2 (amended): a successful add or remove updates the in-memory address
dict and attempts the durable write before replying, and when the write
succeeds the file holds the full new dict before success is reported; but
when the write fails the error is swallowed inside
`_save_dynamic_addresses` — the command still replies success with the file
left at its previous content, so persistence failures are invisible to the
caller. -/
theorem C2_persistence (st st2 : BotState) (userId : ℤ)
    (uname fname : Option String) (nowIso : String) (args args2 : List String)
    (genAlias : String) (saveOk : Bool) (addr label addr2 : String)
    (hargs : args ≠ [])
    (hparse : parseAddArg (joinSpace (args.map String.toList)) genAlias = (addr, label))
    (hvalid : validateAddress addr = true)
    (hfresh : List.lookup addr st.dynamic_addresses = none)
    (hargs2 : args2 ≠ [])
    (hparse2 : (⟨trimWsL (joinSpace (args2.map String.toList))⟩ : String) = addr2)
    (hvalid2 : validateAddress addr2 = true)
    (htracked : (List.lookup addr2 st2.dynamic_addresses).isSome = true) :
    ((handleAddCommand st userId uname fname nowIso args genAlias saveOk).reply =
        AddReply.success ∧
      (handleAddCommand st userId uname fname nowIso args genAlias saveOk).st.dynamic_addresses =
        dictInsert st.dynamic_addresses addr label ∧
      (saveOk = true →
        (handleAddCommand st userId uname fname nowIso args genAlias saveOk).st.file_addresses =
          dictInsert st.dynamic_addresses addr label) ∧
      (saveOk = false →
        (handleAddCommand st userId uname fname nowIso args genAlias saveOk).st.file_addresses =
          st.file_addresses)) ∧
    ((handleRemoveCommand st2 userId uname fname nowIso args2 saveOk).reply =
        RemoveReply.success ∧
      (handleRemoveCommand st2 userId uname fname nowIso args2 saveOk).st.dynamic_addresses =
        dictErase st2.dynamic_addresses addr2 ∧
      (saveOk = true →
        (handleRemoveCommand st2 userId uname fname nowIso args2 saveOk).st.file_addresses =
          dictErase st2.dynamic_addresses addr2) ∧
      (saveOk = false →
        (handleRemoveCommand st2 userId uname fname nowIso args2 saveOk).st.file_addresses =
          st2.file_addresses)) := by
  have hie : args.isEmpty = false := by
    cases args with
    | nil => exact absurd rfl hargs
    | cons a r => rfl
  have hie2 : args2.isEmpty = false := by
    cases args2 with
    | nil => exact absurd rfl hargs2
    | cons a r => rfl
  constructor
  · unfold handleAddCommand
    rw [hie, hparse]
    simp only [Bool.false_eq_true, if_false, hvalid, Bool.not_true, hfresh,
      Option.isSome_none]
    refine ⟨True.intro, True.intro, fun hs => ?_, fun hs => ?_⟩ <;> rw [hs] <;> rfl
  · have hnone : (List.lookup addr2 st2.dynamic_addresses).isNone = false := by
      obtain ⟨v, hv⟩ := Option.isSome_iff_exists.mp htracked
      rw [hv]
      rfl
    unfold handleRemoveCommand
    rw [hie2, hparse2]
    simp only [Bool.false_eq_true, if_false, hvalid2, Bool.not_true, hnone]
    refine ⟨True.intro, True.intro, fun hs => ?_, fun hs => ?_⟩ <;> rw [hs] <;> rfl

/-- Closed instance of the C2 persistence theorem: adding `addArgW` to the
empty state and removing `goodAddrW` from `st2W`, both with a succeeding
durable write. -/
theorem C2_witness :
    (handleAddCommand ⟨[], [], []⟩ 7 (some "u") (some "U") "t" [addArgW] "a" true).reply =
        AddReply.success ∧
      (handleAddCommand ⟨[], [], []⟩ 7 (some "u") (some "U") "t" [addArgW] "a" true
        ).st.file_addresses = [(goodAddrW, "Whale")] ∧
      (handleRemoveCommand st2W 7 (some "u") (some "U") "t" [goodAddrW] true).reply =
        RemoveReply.success ∧
      (handleRemoveCommand st2W 7 (some "u") (some "U") "t" [goodAddrW] true
        ).st.file_addresses = [] := by
  have h := C2_persistence ⟨[], [], []⟩ st2W 7 (some "u") (some "U") "t" [addArgW] [goodAddrW]
    "a" true goodAddrW "Whale" goodAddrW (by decide) (by decide) (by decide) rfl (by decide)
    (by decide) (by decide) rfl
  refine ⟨h.1.1, ?_, h.2.1, ?_⟩
  · rw [h.1.2.2.1 rfl]
    decide
  · rw [h.2.2.2.1 rfl]
    decide

/-! ## The address validator (claim C3) -/

theorem hex_not_ws (c : Char) (h : isHexDigitCh c = true) : isAsciiWs c = false := by
  by_contra hcon
  have hcon2 : isAsciiWs c = true := by
    cases hx : isAsciiWs c
    · exact absurd hx hcon
    · rfl
  unfold isAsciiWs at hcon2
  simp only [Bool.or_eq_true, decide_eq_true_eq, or_assoc] at hcon2
  rcases hcon2 with rfl | rfl | rfl | rfl | rfl | rfl <;> exact absurd h (by decide)

theorem hex_ne_special (c : Char) (h : isHexDigitCh c = true) :
    c ≠ '+' ∧ c ≠ '-' ∧ c ≠ 'x' ∧ c ≠ 'X' ∧ c ≠ '_' := by
  refine ⟨?_, ?_, ?_, ?_, ?_⟩ <;> intro he <;> rw [he] at h <;> exact absurd h (by decide)

theorem dropWhile_eq_self_of (p : Char → Bool) (l : List Char)
    (h : ∀ c ∈ l, p c = false) : l.dropWhile p = l := by
  cases l with
  | nil => rfl
  | cons c r =>
    rw [List.dropWhile_cons, h c (List.mem_cons_self c r)]
    simp

theorem trimWsL_eq_self (l : List Char) (h : ∀ c ∈ l, isAsciiWs c = false) :
    trimWsL l = l := by
  unfold trimWsL
  rw [dropWhile_eq_self_of _ l h,
    dropWhile_eq_self_of _ l.reverse (fun c hc => h c (List.mem_reverse.mp hc)),
    List.reverse_reverse]

theorem hexRun_of_all (l : List Char) (h : ∀ c ∈ l, isHexDigitCh c = true) :
    hexRun l = true := by
  induction l with
  | nil => rfl
  | cons c r ih =>
    have hc := h c (List.mem_cons_self c r)
    unfold hexRun
    rw [if_neg (hex_ne_special c hc).2.2.2.2,
      hc, ih (fun x hx => h x (List.mem_cons_of_mem c hx))]
    rfl

theorem pyIntHexValid_of_all (l : List Char) (hne : l ≠ [])
    (h : ∀ c ∈ l, isHexDigitCh c = true) : pyIntHexValid l = true := by
  obtain ⟨c0, r, rfl⟩ := List.exists_cons_of_ne_nil hne
  have hc0 := h c0 (List.mem_cons_self c0 r)
  have hr : ∀ c ∈ r, isHexDigitCh c = true := fun c hc => h c (List.mem_cons_of_mem c0 hc)
  have htrim : trimWsL (c0 :: r) = c0 :: r :=
    trimWsL_eq_self _ (fun c hc => hex_not_ws c (h c hc))
  have hnsign : ¬((decide (c0 = '+') || decide (c0 = '-')) = true) := by
    simp only [Bool.or_eq_true, decide_eq_true_eq, not_or]
    exact ⟨(hex_ne_special c0 hc0).1, (hex_ne_special c0 hc0).2.1⟩
  have hds : dropSign (c0 :: r) = c0 :: r := by
    simp only [dropSign]
    rw [if_neg hnsign]
  have hd0 : drop0x (c0 :: r) = c0 :: r := by
    cases r with
    | nil => rfl
    | cons c1 r2 =>
      have hc1 := hr c1 (List.mem_cons_self c1 r2)
      have hcond : ¬((decide (c0 = '0') && (decide (c1 = 'x') || decide (c1 = 'X'))) = true) := by
        simp only [Bool.and_eq_true, Bool.or_eq_true, decide_eq_true_eq, not_and, not_or]
        exact fun _ => ⟨(hex_ne_special c1 hc1).2.2.1, (hex_ne_special c1 hc1).2.2.2.1⟩
      simp only [drop0x]
      rw [if_neg hcond]
  unfold pyIntHexValid
  rw [htrim, hds, hd0]
  show (isHexDigitCh c0 && hexRun r) = true
  rw [hc0, hexRun_of_all r hr]
  rfl

theorem validator_complete (s : String) (h : specWellFormed s) :
    validateAddress s = true := by
  obtain ⟨h0x, hlen, hhex⟩ := h
  unfold validateAddress validAddrL
  have hie : s.toList.isEmpty = false := by
    cases hl : s.toList with
    | nil => rw [hl] at hlen; simp at hlen
    | cons a r => rfl
  have hbne : (s.toList.length != 42) = false := by
    rw [hlen]
    rfl
  have hne : s.toList.drop 2 ≠ [] := by
    intro he
    have h40 : (s.toList.drop 2).length = 40 := by
      rw [List.length_drop, hlen]
    rw [he] at h40
    simp at h40
  simp only [hie, h0x, hbne, Bool.not_true, Bool.false_eq_true, if_false]
  exact pyIntHexValid_of_all _ hne hhex

theorem validator_sound (s : String) (h : validateAddress s = true) :
    startsWith0x s.toList = true ∧ s.toList.length = 42 := by
  unfold validateAddress validAddrL at h
  split at h
  · exact absurd h (by decide)
  · split at h
    · exact absurd h (by decide)
    · split at h
      · exact absurd h (by decide)
      · rename_i h1 h2 h3
        constructor
        · cases hb : startsWith0x s.toList with
          | false =>
            exfalso
            apply h2
            rw [hb]
            rfl
          | true => rfl
        · by_contra hne
          apply h3
          simp only [bne_iff_ne, ne_eq]
          exact hne

/-- C3 counterexample: `badAddrW` — `"0x"` followed by `'+'` and 39 ones —
is accepted by `_validate_address` even though its 40-character tail is not
all hexadecimal digits: Python `int(tail, 16)` tolerates a leading sign (as
well as inner underscores, an inner `0x` marker and surrounding
whitespace), so the claimed exact characterization fails. -/
theorem C3_counterexample :
    validateAddress badAddrW = true ∧ ¬ specWellFormed badAddrW := by
  exact ⟨by decide, by decide⟩

/-- C3 (amended): the validator accepts every address that is well-formed
in the spec sense (`0x` plus 40 hex digits, 42 characters in all), and
everything it accepts starts with `0x` and has exactly 42 characters — but
the tail check is only Python `int(tail, 16)` succeeding, which is weaker
than all-hex (see `C3_counterexample`).  The mutation half of the claim
holds: when the validator rejects the parsed address argument, `/add` and
`/remove` leave the tracked-address dict (and the durable file) unchanged. -/
theorem C3_validator (s t : String) (st : BotState) (userId : ℤ)
    (uname fname : Option String) (nowIso : String) (args args2 : List String)
    (genAlias : String) (saveOk : Bool) (addr label addr2 : String)
    (hs : specWellFormed s)
    (ht : validateAddress t = true)
    (hargs : args ≠ [])
    (hparse : parseAddArg (joinSpace (args.map String.toList)) genAlias = (addr, label))
    (hinvalid : validateAddress addr = false)
    (hargs2 : args2 ≠ [])
    (hparse2 : (⟨trimWsL (joinSpace (args2.map String.toList))⟩ : String) = addr2)
    (hinvalid2 : validateAddress addr2 = false) :
    validateAddress s = true ∧
    (startsWith0x t.toList = true ∧ t.toList.length = 42) ∧
    ((handleAddCommand st userId uname fname nowIso args genAlias saveOk).st.dynamic_addresses =
        st.dynamic_addresses ∧
      (handleAddCommand st userId uname fname nowIso args genAlias saveOk).st.file_addresses =
        st.file_addresses) ∧
    ((handleRemoveCommand st userId uname fname nowIso args2 saveOk).st.dynamic_addresses =
        st.dynamic_addresses ∧
      (handleRemoveCommand st userId uname fname nowIso args2 saveOk).st.file_addresses =
        st.file_addresses) := by
  have hie : args.isEmpty = false := by
    cases args with
    | nil => exact absurd rfl hargs
    | cons a r => rfl
  have hie2 : args2.isEmpty = false := by
    cases args2 with
    | nil => exact absurd rfl hargs2
    | cons a r => rfl
  refine ⟨validator_complete s hs, validator_sound t ht, ?_, ?_⟩
  · unfold handleAddCommand
    rw [hie, hparse]
    simp only [Bool.false_eq_true, if_false, hinvalid, Bool.not_false, if_true]
    exact ⟨True.intro, True.intro⟩
  · unfold handleRemoveCommand
    rw [hie2, hparse2]
    simp only [Bool.false_eq_true, if_false, hinvalid2, Bool.not_false, if_true]
    exact ⟨True.intro, True.intro⟩

/-- Closed instance of the C3 validator theorem: `goodAddrW` is both
spec-well-formed and accepted, and an `/add` and `/remove` with the
rejected argument `"zzz"` leave the empty state unchanged. -/
theorem C3_witness :
    validateAddress goodAddrW = true ∧
      startsWith0x goodAddrW.toList = true ∧
      (handleAddCommand ⟨[], [], []⟩ 7 none none "t" ["zzz"] "a" true).st.dynamic_addresses =
        ([] : List (String × String)) ∧
      (handleRemoveCommand ⟨[], [], []⟩ 7 none none "t" ["zzz"] true).st.dynamic_addresses =
        ([] : List (String × String)) := by
  have h := C3_validator goodAddrW goodAddrW ⟨[], [], []⟩ 7 none none "t" ["zzz"] ["zzz"]
    "a" true "zzz" "a" "zzz" (by decide) (by decide) (by decide) (by decide) (by decide)
    (by decide) (by decide) (by decide)
  exact ⟨h.1, h.2.1.1, h.2.2.1.1, h.2.2.2.1⟩

end WhaleTracker
